import Mathlib

/-!
# Verification of the tilemap terrain/hydrology pipeline

Shallow embedding of the core terrain generation pipeline of the
`Yudell/tilemap` repository (`MinHeap` from `Utils`, and the `World` class:
`smoothMap`, `fillSinks`, `calculateDistanceToCoast`, `generateRivers`).

Modelling conventions:
* JS `number` values (Float32/Float64 array entries) are embedded as exact
  rationals `ℚ`; machine floating point rounding is not modelled.
* Typed arrays of length `N` are embedded as total functions `ℕ → _`;
  all statements restrict attention to indices `< N`.
* The `-1` sentinel of `downhill` is embedded as `Option ℕ` (`none` = `-1`);
  the `-1` sentinel of the coast-distance array is kept as the integer `-1`
  because those raw values participate in later integer comparisons.
* `while` loops are embedded as fuel-indexed recursions; the fuel supplied
  at the call sites is proven sufficient for the loop to run to completion
  (the loop's termination measure strictly decreases at every iteration).
-/

namespace Tilemap

/-! ## JS array access helpers

`hGet l i` models `l[i]` (JS reads of an index that is always in bounds at
the call sites; out-of-bounds reads return a default), and `hSwap` models
the `swap` method of `MinHeap`
(`temp = heap[i]; heap[i] = heap[j]; heap[j] = temp`). -/

def hGet {T : Type} [Inhabited T] (l : List T) (i : ℕ) : T :=
  l.getD i default

def hSwap {T : Type} [Inhabited T] (l : List T) (i j : ℕ) : List T :=
  (l.set i (hGet l j)).set j (hGet l i)

theorem hGet_eq_getElem {T : Type} [Inhabited T] (l : List T) {i : ℕ}
    (h : i < l.length) : hGet l i = l[i] :=
  List.getD_eq_getElem l default h

@[simp] theorem length_hSwap {T : Type} [Inhabited T] (l : List T) (i j : ℕ) :
    (hSwap l i j).length = l.length := by
  simp [hSwap]

theorem getElem_hSwap_fst {T : Type} [Inhabited T] (l : List T) {i j : ℕ}
    (hi : i < l.length) (hj : j < l.length) (hne : i ≠ j)
    (h : i < (hSwap l i j).length) : (hSwap l i j)[i] = l[j] := by
  unfold hSwap
  rw [List.getElem_set_ne (show j ≠ i by omega) (by simpa using hi),
    List.getElem_set_self (by simpa using hi), hGet_eq_getElem l hj]

theorem getElem_hSwap_snd {T : Type} [Inhabited T] (l : List T) {i j : ℕ}
    (hi : i < l.length) (h : j < (hSwap l i j).length) :
    (hSwap l i j)[j] = l[i] := by
  unfold hSwap
  rw [List.getElem_set_self, hGet_eq_getElem l hi]

theorem getElem_hSwap_other {T : Type} [Inhabited T] (l : List T) {i j k : ℕ}
    (hki : k ≠ i) (hkj : k ≠ j) (h : k < (hSwap l i j).length) :
    (hSwap l i j)[k] = l.get ⟨k, by simpa using h⟩ := by
  unfold hSwap
  rw [List.getElem_set_ne (by omega), List.getElem_set_ne (by omega)]
  rfl

/-- Additive form of the `List.set` / `List.count` interaction, avoiding
truncated subtraction. -/
theorem count_set_add {T : Type} [DecidableEq T] :
    ∀ (l : List T) (i : ℕ) (a b : T), ∀ h : i < l.length,
      (l.set i a).count b + (if l[i] = b then 1 else 0) =
        l.count b + (if a = b then 1 else 0) := by
  intro l
  induction l with
  | nil => intro i a b h; simp at h
  | cons c t ih =>
    intro i a b h
    cases i with
    | zero =>
      simp only [List.set, List.count_cons, List.getElem_cons_zero, beq_iff_eq]
      omega
    | succ n =>
      simp only [List.set, List.count_cons, List.getElem_cons_succ, beq_iff_eq]
      have := ih n a b (by simpa using Nat.lt_of_succ_lt_succ h)
      omega

theorem count_hSwap {T : Type} [Inhabited T] [DecidableEq T] (l : List T)
    {i j : ℕ} (hi : i < l.length) (hj : j < l.length) (b : T) :
    (hSwap l i j).count b = l.count b := by
  unfold hSwap
  rw [hGet_eq_getElem l hi, hGet_eq_getElem l hj]
  have h1 := count_set_add l i (l[j]) b hi
  have h2 := count_set_add (l.set i (l[j])) j (l[i]) b (by simpa using hj)
  by_cases hij : i = j
  · subst hij
    rw [List.getElem_set_self (by simpa using hi)] at h2
    omega
  · rw [List.getElem_set_ne hij (by simpa using hj)] at h2
    omega

theorem perm_hSwap {T : Type} [Inhabited T] [DecidableEq T] (l : List T)
    {i j : ℕ} (hi : i < l.length) (hj : j < l.length) :
    (hSwap l i j).Perm l := by
  rw [List.perm_iff_count]
  intro a
  exact count_hSwap l hi hj a

/-! ## `MinHeap` (from `Utils.ts`)

The TS class stores a backing array `heap` and a comparator closure
`compare`.  The closure used by `fillSinks` reads the mutable elevation
array live, so the embedding passes the comparator to every operation
explicitly; a run with a fixed comparator models the class contract. -/

/-- `MinHeap.bubbleUp`: sift the element at `index` up while it compares
strictly below its parent.  The `while` loop is fuel-indexed (structural
recursion); any fuel `≥ index` runs the loop to completion, since the
index strictly decreases at every step. -/
def bubbleUp {T : Type} [Inhabited T] (cmp : T → T → ℚ) :
    ℕ → List T → ℕ → List T
  | 0, l, _ => l
  | fuel + 1, l, i =>
    if 0 < i then
      let p := (i - 1) / 2
      if cmp (hGet l i) (hGet l p) < 0 then
        bubbleUp cmp fuel (hSwap l i p) p
      else l
    else l

/-- `MinHeap.bubbleDown`: sift the element at `index` down, swapping with
the smaller child (`left` when `compare(left, right) < 0`, else `right`)
while the chosen child compares strictly below the current element.  The
`while` loop is fuel-indexed; any fuel `≥ length - index` runs it to
completion, since the index strictly increases and stays below `length`. -/
def bubbleDown {T : Type} [Inhabited T] (cmp : T → T → ℚ) :
    ℕ → List T → ℕ → List T
  | 0, l, _ => l
  | fuel + 1, l, i =>
    if 2 * i + 1 < l.length then
      let si : ℕ :=
        if 2 * i + 2 < l.length then
          (if cmp (hGet l (2 * i + 1)) (hGet l (2 * i + 2)) < 0 then 2 * i + 1
           else 2 * i + 2)
        else 2 * i + 1
      if cmp (hGet l si) (hGet l i) < 0 then
        bubbleDown cmp fuel (hSwap l i si) si
      else l
    else l

/-- `MinHeap.push`: append, then sift the new last element up
(`bubbleUp(this.heap.length - 1)`). -/
def push {T : Type} [Inhabited T] (cmp : T → T → ℚ) (l : List T) (x : T) :
    List T :=
  bubbleUp cmp (l.length + 1) (l ++ [x]) l.length

/-- `MinHeap.pop`: return `undefined` on an empty heap; otherwise return the
root, move the last element to the root and sift it down. -/
def pop {T : Type} [Inhabited T] (cmp : T → T → ℚ) (l : List T) :
    Option T × List T :=
  if l.length = 0 then (none, l)
  else
    let top := hGet l 0
    let bottom := hGet l (l.length - 1)
    let rest := l.dropLast
    if 0 < rest.length then
      (some top, bubbleDown cmp rest.length (rest.set 0 bottom) 0)
    else (some top, rest)

/-! ### Size and multiset behaviour of the heap operations -/

theorem length_bubbleUp {T : Type} [Inhabited T] (cmp : T → T → ℚ) :
    ∀ (fuel : ℕ) (l : List T) (i : ℕ),
      (bubbleUp cmp fuel l i).length = l.length := by
  intro fuel
  induction fuel with
  | zero => intro l i; rfl
  | succ fuel ih =>
    intro l i
    rw [bubbleUp]
    split
    · dsimp only
      split
      · rw [ih]; simp
      · rfl
    · rfl

theorem perm_bubbleUp {T : Type} [Inhabited T] [DecidableEq T]
    (cmp : T → T → ℚ) :
    ∀ (fuel : ℕ) (l : List T) (i : ℕ), i < l.length →
      (bubbleUp cmp fuel l i).Perm l := by
  intro fuel
  induction fuel with
  | zero => intro l i _; exact List.Perm.refl l
  | succ fuel ih =>
    intro l i hil
    rw [bubbleUp]
    split
    · next h0 =>
      dsimp only
      split
      · next hc =>
        have hp : (i - 1) / 2 < l.length := by omega
        exact (ih _ _ (by simp only [length_hSwap]; omega)).trans
          (perm_hSwap l hil hp)
      · exact List.Perm.refl l
    · exact List.Perm.refl l

theorem length_bubbleDown {T : Type} [Inhabited T] (cmp : T → T → ℚ) :
    ∀ (fuel : ℕ) (l : List T) (i : ℕ),
      (bubbleDown cmp fuel l i).length = l.length := by
  intro fuel
  induction fuel with
  | zero => intro l i; rfl
  | succ fuel ih =>
    intro l i
    rw [bubbleDown]
    split
    · next hl =>
      dsimp only
      split
      · next h2 =>
        split
        · next hc12 =>
          split
          · rw [ih]; simp
          · rfl
        · next hc12 =>
          split
          · rw [ih]; simp
          · rfl
      · next h2 =>
        split
        · rw [ih]; simp
        · rfl
    · rfl

theorem perm_bubbleDown {T : Type} [Inhabited T] [DecidableEq T]
    (cmp : T → T → ℚ) :
    ∀ (fuel : ℕ) (l : List T) (i : ℕ), (bubbleDown cmp fuel l i).Perm l := by
  intro fuel
  induction fuel with
  | zero => intro l i; exact List.Perm.refl l
  | succ fuel ih =>
    intro l i
    rw [bubbleDown]
    split
    · next hl =>
      dsimp only
      split
      · next h2 =>
        split
        · next hc12 =>
          split
          · exact (ih _ _).trans (perm_hSwap l (by omega) (by omega))
          · exact List.Perm.refl l
        · next hc12 =>
          split
          · exact (ih _ _).trans (perm_hSwap l (by omega) (by omega))
          · exact List.Perm.refl l
      · next h2 =>
        split
        · exact (ih _ _).trans (perm_hSwap l (by omega) (by omega))
        · exact List.Perm.refl l
    · exact List.Perm.refl l

@[simp] theorem length_push {T : Type} [Inhabited T] (cmp : T → T → ℚ)
    (l : List T) (x : T) : (push cmp l x).length = l.length + 1 := by
  rw [push, length_bubbleUp]
  simp

theorem perm_push {T : Type} [Inhabited T] [DecidableEq T] (cmp : T → T → ℚ)
    (l : List T) (x : T) : (push cmp l x).Perm (l ++ [x]) :=
  perm_bubbleUp cmp (l.length + 1) (l ++ [x]) l.length (by simp)

theorem count_push {T : Type} [Inhabited T] [DecidableEq T] (cmp : T → T → ℚ)
    (l : List T) (x b : T) :
    (push cmp l x).count b = l.count b + (if x = b then 1 else 0) := by
  rw [(perm_push cmp l x).count_eq, List.count_append]
  simp [List.count_cons, beq_iff_eq]

theorem pop_empty {T : Type} [Inhabited T] (cmp : T → T → ℚ) (l : List T)
    (h : l.length = 0) : pop cmp l = (none, l) := by
  rw [pop, if_pos h]

theorem pop_fst {T : Type} [Inhabited T] (cmp : T → T → ℚ) (l : List T)
    (h : 0 < l.length) : (pop cmp l).1 = some (l[0]) := by
  rw [pop, if_neg (by omega)]
  dsimp only
  split <;> simp [hGet_eq_getElem l h]

theorem length_pop {T : Type} [Inhabited T] (cmp : T → T → ℚ) (l : List T)
    (h : 0 < l.length) : (pop cmp l).2.length = l.length - 1 := by
  rw [pop, if_neg (by omega)]
  dsimp only
  split
  · next hr =>
    rw [length_bubbleDown]
    simp
  · simp

theorem count_pop {T : Type} [Inhabited T] [DecidableEq T] (cmp : T → T → ℚ)
    (l : List T) (h : 0 < l.length) (b : T) :
    (pop cmp l).2.count b + (if l[0] = b then 1 else 0) = l.count b := by
  rw [pop, if_neg (by omega)]
  dsimp only
  have hlast : l.dropLast ++ [l[l.length - 1]] = l := by
    conv_rhs => rw [← List.dropLast_append_getLast (l.ne_nil_of_length_pos h)]
    rw [List.getLast_eq_getElem]
  split
  · next hr =>
    rw [(perm_bubbleDown cmp l.dropLast.length
      (l.dropLast.set 0 (hGet l (l.length - 1))) 0).count_eq]
    have h0r : 0 < l.dropLast.length := hr
    have hcs := count_set_add l.dropLast 0 (hGet l (l.length - 1)) b h0r
    have hd0 : l.dropLast[0] = l[0] := List.getElem_dropLast l 0 h0r
    rw [hd0] at hcs
    have hcount : l.count b =
        l.dropLast.count b + (if l[l.length - 1] = b then 1 else 0) := by
      conv_lhs => rw [← hlast]
      rw [List.count_append]
      simp [List.count_cons, beq_iff_eq]
    rw [hGet_eq_getElem l (show l.length - 1 < l.length by omega)] at hcs ⊢
    omega
  · next hr =>
    have hl1 : l.length = 1 := by
      have := List.length_dropLast l
      omega
    obtain ⟨a, rfl⟩ := List.length_eq_one.mp hl1
    simp [List.count_cons, beq_iff_eq]

/-! ### Ordering behaviour of the heap operations

The TS comparator returns a number; `compare(a, b) < 0` means `a` orders
strictly before `b`.  A comparator encodes a fixed total preorder when its
sign is coherent under argument swap and the induced relation
`cmp a b ≤ 0` is transitive. -/

structure IsComparator {T : Type} (cmp : T → T → ℚ) : Prop where
  sign : ∀ a b, cmp a b ≤ 0 ↔ 0 ≤ cmp b a
  le_trans : ∀ a b c, cmp a b ≤ 0 → cmp b c ≤ 0 → cmp a c ≤ 0

theorem IsComparator.le_refl {T : Type} {cmp : T → T → ℚ}
    (hc : IsComparator cmp) (a : T) : cmp a a ≤ 0 := by
  rcases le_or_lt (cmp a a) 0 with h | h
  · exact h
  · exact (hc.sign a a).mpr (le_of_lt h)

theorem IsComparator.le_of_not_lt {T : Type} {cmp : T → T → ℚ}
    (hc : IsComparator cmp) (a b : T) (h : ¬ cmp a b < 0) : cmp b a ≤ 0 :=
  (hc.sign b a).mpr (not_lt.mp h)

/-- Index of the parent of heap slot `i` (the `(i - 1) / 2` of the source,
with ℕ truncated subtraction agreeing at `i = 0`). -/
def parentIdx (i : ℕ) : ℕ := (i - 1) / 2

theorem parentIdx_lt (i : ℕ) (h : 0 < i) : parentIdx i < i := by
  unfold parentIdx; omega

theorem parentIdx_children (i j : ℕ) (h0 : 0 < j) (h : parentIdx j = i) :
    j = 2 * i + 1 ∨ j = 2 * i + 2 := by
  unfold parentIdx at h; omega

/-- The binary-heap invariant: every non-root slot orders no earlier than
its parent under the comparator. -/
def HeapWF {T : Type} [Inhabited T] (cmp : T → T → ℚ) (l : List T) : Prop :=
  ∀ j, 0 < j → j < l.length → cmp (hGet l (parentIdx j)) (hGet l j) ≤ 0

/-- Loop invariant of `bubbleUp` at hole `i`: every heap edge except the
one into `i` holds, and the grandparent of `i` already dominates the
children of `i` (the bridge across the hole). -/
def BUInv {T : Type} [Inhabited T] (cmp : T → T → ℚ) (l : List T) (i : ℕ) :
    Prop :=
  (∀ j, 0 < j → j < l.length → j ≠ i →
    cmp (hGet l (parentIdx j)) (hGet l j) ≤ 0) ∧
  (0 < i → ∀ j, j < l.length → parentIdx j = i →
    cmp (hGet l (parentIdx i)) (hGet l j) ≤ 0)

/-- Loop invariant of `bubbleDown` at hole `i`: every heap edge except
those out of `i` holds, and the parent of `i` already dominates the
children of `i`. -/
def BDInv {T : Type} [Inhabited T] (cmp : T → T → ℚ) (l : List T) (i : ℕ) :
    Prop :=
  (∀ j, 0 < j → j < l.length → parentIdx j ≠ i →
    cmp (hGet l (parentIdx j)) (hGet l j) ≤ 0) ∧
  (0 < i → ∀ j, j < l.length → parentIdx j = i →
    cmp (hGet l (parentIdx i)) (hGet l j) ≤ 0)

theorem hGet_hSwap_fst {T : Type} [Inhabited T] (l : List T) {i j : ℕ}
    (hi : i < l.length) (hj : j < l.length) (hne : i ≠ j) :
    hGet (hSwap l i j) i = hGet l j := by
  rw [hGet_eq_getElem _ (by simpa using hi), hGet_eq_getElem _ hj]
  exact getElem_hSwap_fst l hi hj hne (by simpa using hi)

theorem hGet_hSwap_snd {T : Type} [Inhabited T] (l : List T) {i j : ℕ}
    (hi : i < l.length) (hj : j < l.length) :
    hGet (hSwap l i j) j = hGet l i := by
  rw [hGet_eq_getElem _ (by simpa using hj), hGet_eq_getElem _ hi]
  exact getElem_hSwap_snd l hi (by simpa using hj)

theorem hGet_hSwap_other {T : Type} [Inhabited T] (l : List T) {i j k : ℕ}
    (hk : k < l.length) (hki : k ≠ i) (hkj : k ≠ j) :
    hGet (hSwap l i j) k = hGet l k := by
  rw [hGet_eq_getElem _ (by simpa using hk), hGet_eq_getElem _ hk]
  exact getElem_hSwap_other l hki hkj (by simpa using hk)

/-- One `bubbleUp` swap step preserves the loop invariant, moving the hole
from `i` to its parent. -/
theorem buInv_swap {T : Type} [Inhabited T] (cmp : T → T → ℚ)
    (hc : IsComparator cmp) (l : List T) (i : ℕ) (hil : i < l.length)
    (h0 : 0 < i)
    (hlt : cmp (hGet l i) (hGet l ((i - 1) / 2)) < 0)
    (hinv : BUInv cmp l i) :
    BUInv cmp (hSwap l i ((i - 1) / 2)) ((i - 1) / 2) := by
  have hp : (i - 1) / 2 < i := by omega
  have hpl : (i - 1) / 2 < l.length := lt_trans hp hil
  have hne : i ≠ (i - 1) / 2 := by omega
  have hA_i : hGet (hSwap l i ((i - 1) / 2)) i = hGet l ((i - 1) / 2) :=
    hGet_hSwap_fst l hil hpl hne
  have hA_p : hGet (hSwap l i ((i - 1) / 2)) ((i - 1) / 2) = hGet l i :=
    hGet_hSwap_snd l hil hpl
  have hA_o : ∀ k, k < l.length → k ≠ i → k ≠ (i - 1) / 2 →
      hGet (hSwap l i ((i - 1) / 2)) k = hGet l k :=
    fun k hk hki hkp => hGet_hSwap_other l hk hki hkp
  have hpi : parentIdx i = (i - 1) / 2 := rfl
  constructor
  · intro j hj0 hjA hjp
    rw [length_hSwap] at hjA
    by_cases hji : j = i
    · subst hji
      rw [hpi, hA_p, hA_i]
      exact le_of_lt hlt
    · rw [hA_o j hjA hji hjp]
      by_cases hpj : parentIdx j = i
      · rw [hpj, hA_i]
        exact hinv.2 h0 j hjA hpj
      · by_cases hpj' : parentIdx j = (i - 1) / 2
        · rw [hpj', hA_p]
          have hedge := hinv.1 j hj0 hjA hji
          rw [hpj'] at hedge
          exact hc.le_trans _ _ _ (le_of_lt hlt) hedge
        · have hpjl : parentIdx j < l.length :=
            lt_trans (parentIdx_lt j hj0) hjA
          rw [hA_o (parentIdx j) hpjl hpj hpj']
          exact hinv.1 j hj0 hjA hji
  · intro hp0 j hjA hpj
    rw [length_hSwap] at hjA
    have hppl : parentIdx ((i - 1) / 2) < l.length :=
      lt_trans (lt_trans (parentIdx_lt _ hp0) hp) hil
    have hppne_i : parentIdx ((i - 1) / 2) ≠ i := by
      have := parentIdx_lt _ hp0
      omega
    have hppne_p : parentIdx ((i - 1) / 2) ≠ (i - 1) / 2 := by
      have := parentIdx_lt _ hp0
      omega
    rw [hA_o _ hppl hppne_i hppne_p]
    have hedge_pp := hinv.1 ((i - 1) / 2) hp0 hpl (by omega)
    by_cases hji : j = i
    · subst hji
      rw [hA_i]
      exact hedge_pp
    · have hjp : j ≠ (i - 1) / 2 := by
        intro he
        rw [he] at hpj
        have := parentIdx_lt _ hp0
        omega
      rw [hA_o j hjA hji hjp]
      have hj0 : 0 < j := by
        rcases Nat.eq_zero_or_pos j with h | h
        · subst h
          exact absurd hpj (by unfold parentIdx; omega)
        · exact h
      have hedge_j := hinv.1 j hj0 hjA hji
      rw [hpj] at hedge_j
      exact hc.le_trans _ _ _ hedge_pp hedge_j

/-- `bubbleUp` with fuel exceeding the start index turns the loop
invariant into the full heap invariant. -/
theorem bubbleUp_wf {T : Type} [Inhabited T] (cmp : T → T → ℚ)
    (hc : IsComparator cmp) :
    ∀ (fuel : ℕ) (l : List T) (i : ℕ), i < l.length → i < fuel →
      BUInv cmp l i → HeapWF cmp (bubbleUp cmp fuel l i) := by
  intro fuel
  induction fuel with
  | zero => intro l i _ hif _; omega
  | succ fuel ih =>
    intro l i hil hif hinv
    rw [bubbleUp]
    split
    · next h0 =>
      dsimp only
      split
      · next hlt =>
        refine ih (hSwap l i ((i - 1) / 2)) ((i - 1) / 2) ?_ (by omega)
          (buInv_swap cmp hc l i hil h0 hlt hinv)
        rw [length_hSwap]
        omega
      · next hge =>
        intro j hj0 hjl
        by_cases hji : j = i
        · subst hji
          exact hc.le_of_not_lt _ _ hge
        · exact hinv.1 j hj0 hjl hji
    · next h0 =>
      intro j hj0 hjl
      exact hinv.1 j hj0 hjl (by omega)

theorem hGet_append_left {T : Type} [Inhabited T] (l : List T) (x : T)
    (k : ℕ) (h : k < l.length) : hGet (l ++ [x]) k = hGet l k := by
  rw [hGet_eq_getElem _ (by simp; omega), hGet_eq_getElem _ h]
  exact List.getElem_append_left h

/-- `push` preserves the heap invariant. -/
theorem push_wf {T : Type} [Inhabited T] (cmp : T → T → ℚ)
    (hc : IsComparator cmp) (l : List T) (hwf : HeapWF cmp l) (x : T) :
    HeapWF cmp (push cmp l x) := by
  unfold push
  refine bubbleUp_wf cmp hc (l.length + 1) (l ++ [x]) l.length (by simp)
    (by omega) ⟨?_, ?_⟩
  · intro j hj0 hjl hji
    have hjl' : j < l.length := by
      simp only [List.length_append, List.length_cons, List.length_nil] at hjl
      omega
    have hpj : parentIdx j < l.length := lt_trans (parentIdx_lt j hj0) hjl'
    rw [hGet_append_left l x j hjl', hGet_append_left l x (parentIdx j) hpj]
    exact hwf j hj0 hjl'
  · intro h0 j hjl hpj
    exfalso
    simp only [List.length_append, List.length_cons, List.length_nil] at hjl
    unfold parentIdx at hpj
    omega

/-- When the comparison fails at the hole, the `bubbleDown` loop invariant
plus the smaller-child property already give the full heap invariant. -/
theorem bdInv_ret {T : Type} [Inhabited T] (cmp : T → T → ℚ)
    (hc : IsComparator cmp) (l : List T) (i si : ℕ)
    (hmin : ∀ j, 0 < j → j < l.length → parentIdx j = i →
      cmp (hGet l si) (hGet l j) ≤ 0)
    (hge : ¬ cmp (hGet l si) (hGet l i) < 0)
    (hinv : BDInv cmp l i) : HeapWF cmp l := by
  intro j hj0 hjl
  by_cases hpj : parentIdx j = i
  · rw [hpj]
    exact hc.le_trans _ _ _ (hc.le_of_not_lt _ _ hge) (hmin j hj0 hjl hpj)
  · exact hinv.1 j hj0 hjl hpj

/-- One `bubbleDown` swap step preserves the loop invariant, moving the
hole from `i` to the chosen child `si`. -/
theorem bdInv_swap {T : Type} [Inhabited T] (cmp : T → T → ℚ)
    (hc : IsComparator cmp) (l : List T) (i si : ℕ) (hil : i < l.length)
    (hsil : si < l.length) (hsi0 : 0 < si) (hsip : parentIdx si = i)
    (hmin : ∀ j, 0 < j → j < l.length → parentIdx j = i →
      cmp (hGet l si) (hGet l j) ≤ 0)
    (hlt : cmp (hGet l si) (hGet l i) < 0)
    (hinv : BDInv cmp l i) : BDInv cmp (hSwap l i si) si := by
  have his : i < si := hsip ▸ parentIdx_lt si hsi0
  have hne : i ≠ si := by omega
  have hA_i : hGet (hSwap l i si) i = hGet l si :=
    hGet_hSwap_fst l hil hsil hne
  have hA_si : hGet (hSwap l i si) si = hGet l i :=
    hGet_hSwap_snd l hil hsil
  have hA_o : ∀ k, k < l.length → k ≠ i → k ≠ si →
      hGet (hSwap l i si) k = hGet l k :=
    fun k hk hki hks => hGet_hSwap_other l hk hki hks
  constructor
  · intro j hj0 hjA hpj
    rw [length_hSwap] at hjA
    by_cases hjsi : j = si
    · subst hjsi
      rw [hsip, hA_i, hA_si]
      exact le_of_lt hlt
    · by_cases hji : j = i
      · subst hji
        have hi0 : 0 < j := hj0
        have hpi_lt : parentIdx j < j := parentIdx_lt j hj0
        have hpine_i : parentIdx j ≠ j := by omega
        have hpine_si : parentIdx j ≠ si := by omega
        rw [hA_o (parentIdx j) (lt_trans hpi_lt hjA) hpine_i hpine_si, hA_i]
        exact hinv.2 hj0 si hsil hsip
      · rw [hA_o j hjA hji hjsi]
        by_cases hpji : parentIdx j = i
        · rw [hpji, hA_i]
          exact hmin j hj0 hjA hpji
        · have hpjl : parentIdx j < l.length :=
            lt_trans (parentIdx_lt j hj0) hjA
          rw [hA_o (parentIdx j) hpjl hpji hpj]
          exact hinv.1 j hj0 hjA hpji
  · intro hsi0' j hjA hpj
    rw [length_hSwap] at hjA
    have hjsi : si < j := hpj ▸ parentIdx_lt j (by
      rcases Nat.eq_zero_or_pos j with h | h
      · exfalso
        rw [h] at hpj
        exact absurd hpj.symm (by unfold parentIdx; omega)
      · exact h)
    have hj0 : 0 < j := lt_trans hsi0 hjsi
    have hji : j ≠ i := by omega
    have hjs : j ≠ si := by omega
    rw [hsip, hA_i, hA_o j hjA hji hjs]
    have hedge := hinv.1 j hj0 hjA (by rw [hpj]; omega)
    rw [hpj] at hedge
    exact hedge

/-- `bubbleDown` with fuel at least `length - index` turns the loop
invariant into the full heap invariant. -/
theorem bubbleDown_wf {T : Type} [Inhabited T] (cmp : T → T → ℚ)
    (hc : IsComparator cmp) :
    ∀ (fuel : ℕ) (l : List T) (i : ℕ), l.length ≤ i + fuel →
      BDInv cmp l i → HeapWF cmp (bubbleDown cmp fuel l i) := by
  intro fuel
  induction fuel with
  | zero =>
    intro l i hfl hinv
    show HeapWF cmp l
    intro j hj0 hjl
    exact hinv.1 j hj0 hjl (by unfold parentIdx; omega)
  | succ fuel ih =>
    intro l i hfl hinv
    rw [bubbleDown]
    split
    · next hguard =>
      dsimp only
      split
      · next h2 =>
        split
        · next hc12 =>
          have hmin : ∀ j, 0 < j → j < l.length → parentIdx j = i →
              cmp (hGet l (2 * i + 1)) (hGet l j) ≤ 0 := by
            intro j hj0 hjl hpj
            rcases parentIdx_children i j hj0 hpj with h | h
            · rw [h]
              exact hc.le_refl _
            · rw [h]
              exact le_of_lt hc12
          split
          · next hlt =>
            refine ih (hSwap l i (2 * i + 1)) (2 * i + 1) ?_
              (bdInv_swap cmp hc l i (2 * i + 1) (by omega) hguard
                (by omega) (by unfold parentIdx; omega) hmin hlt hinv)
            rw [length_hSwap]
            omega
          · next hge =>
            exact bdInv_ret cmp hc l i (2 * i + 1) hmin hge hinv
        · next hc12 =>
          have hmin : ∀ j, 0 < j → j < l.length → parentIdx j = i →
              cmp (hGet l (2 * i + 2)) (hGet l j) ≤ 0 := by
            intro j hj0 hjl hpj
            rcases parentIdx_children i j hj0 hpj with h | h
            · rw [h]
              exact hc.le_of_not_lt _ _ hc12
            · rw [h]
              exact hc.le_refl _
          split
          · next hlt =>
            refine ih (hSwap l i (2 * i + 2)) (2 * i + 2) ?_
              (bdInv_swap cmp hc l i (2 * i + 2) (by omega) h2
                (by omega) (by unfold parentIdx; omega) hmin hlt hinv)
            rw [length_hSwap]
            omega
          · next hge =>
            exact bdInv_ret cmp hc l i (2 * i + 2) hmin hge hinv
      · next h2 =>
        have hmin : ∀ j, 0 < j → j < l.length → parentIdx j = i →
            cmp (hGet l (2 * i + 1)) (hGet l j) ≤ 0 := by
          intro j hj0 hjl hpj
          rcases parentIdx_children i j hj0 hpj with h | h
          · rw [h]
            exact hc.le_refl _
          · omega
        split
        · next hlt =>
          refine ih (hSwap l i (2 * i + 1)) (2 * i + 1) ?_
            (bdInv_swap cmp hc l i (2 * i + 1) (by omega) hguard
              (by omega) (by unfold parentIdx; omega) hmin hlt hinv)
          rw [length_hSwap]
          omega
        · next hge =>
          exact bdInv_ret cmp hc l i (2 * i + 1) hmin hge hinv
    · next hguard =>
      intro j hj0 hjl
      refine hinv.1 j hj0 hjl ?_
      intro hpj
      rcases parentIdx_children i j hj0 hpj with h | h <;> omega

/-- `pop` preserves the heap invariant. -/
theorem pop_wf {T : Type} [Inhabited T] (cmp : T → T → ℚ) (l : List T)
    (hc : IsComparator cmp) (hwf : HeapWF cmp l) :
    HeapWF cmp (pop cmp l).2 := by
  rw [pop]
  split
  · exact hwf
  · next hne =>
    dsimp only
    split
    · next hr =>
      have hgetA : ∀ k, 0 < k → k < l.dropLast.length →
          hGet (l.dropLast.set 0 (hGet l (l.length - 1))) k = hGet l k := by
        intro k hk0 hkl
        have hk2 : k < l.length := by
          have := l.length_dropLast
          omega
        rw [hGet_eq_getElem _ (by simpa using hkl),
          List.getElem_set_ne (by omega) (by simpa using hkl),
          List.getElem_dropLast, hGet_eq_getElem l hk2]
      refine bubbleDown_wf cmp hc l.dropLast.length
        (l.dropLast.set 0 (hGet l (l.length - 1))) 0 (by simp) ⟨?_, ?_⟩
      · intro j hj0 hjl hpj
        simp only [List.length_set] at hjl
        have hpj0 : 0 < parentIdx j := Nat.pos_of_ne_zero hpj
        have hjl2 : j < l.length := by
          have := l.length_dropLast
          omega
        rw [hgetA j hj0 hjl,
          hgetA (parentIdx j) hpj0 (lt_trans (parentIdx_lt j hj0) hjl)]
        exact hwf j hj0 hjl2
      · intro h00
        exact absurd h00 (lt_irrefl 0)
    · next hr =>
      intro j hj0 hjl
      dsimp only at hjl
      omega

/-- Root minimality: in a well-formed heap the root orders no later than
every stored element. -/
theorem heapWF_root_min {T : Type} [Inhabited T] (cmp : T → T → ℚ)
    (hc : IsComparator cmp) (l : List T) (hwf : HeapWF cmp l) :
    ∀ j, j < l.length → cmp (hGet l 0) (hGet l j) ≤ 0 := by
  intro j
  induction j using Nat.strong_induction_on with
  | _ j ih =>
    intro hj
    rcases Nat.eq_zero_or_pos j with h0 | h0
    · subst h0
      exact hc.le_refl _
    · have hp : parentIdx j < j := parentIdx_lt j h0
      exact hc.le_trans _ _ _ (ih _ hp (lt_trans hp hj)) (hwf j h0 hj)

/-- Heap contents reachable from the empty heap by any sequence of `push`
and `pop` operations under a fixed comparator. -/
inductive HeapReachable {T : Type} [Inhabited T] (cmp : T → T → ℚ) :
    List T → Prop
  | empty : HeapReachable cmp []
  | push_op (l : List T) (x : T) : HeapReachable cmp l →
      HeapReachable cmp (push cmp l x)
  | pop_op (l : List T) : HeapReachable cmp l →
      HeapReachable cmp (pop cmp l).2

/-- Every reachable heap satisfies the heap invariant. -/
theorem heapReachable_wf {T : Type} [Inhabited T] (cmp : T → T → ℚ)
    (hc : IsComparator cmp) (l : List T) (hr : HeapReachable cmp l) :
    HeapWF cmp l := by
  induction hr with
  | empty =>
    intro j hj0 hjl
    simp at hjl
  | push_op l x _ ih => exact push_wf cmp hc l ih x
  | pop_op l _ ih => exact pop_wf cmp l hc ih

/-! ## The `World` class

Only the fields the hydrology pipeline reads/writes are modelled: the cell
count, the cached adjacency (`precalculateNeighbors` output), the parallel
per-cell arrays and the point positions.  Typed arrays of length
`cellCount` are embedded as total functions on `ℕ`; indices `≥ cellCount`
are junk values no statement depends on. -/

structure World where
  cellCount : ℕ
  adjacency : ℕ → List ℕ
  elevations : ℕ → ℚ
  moisture : ℕ → ℚ
  points : ℕ → ℚ × ℚ

/-- The adjacency cache produced by `precalculateNeighbors` stores valid
cell indices (`d3-delaunay` neighbor indices are always `< cellCount`). -/
def World.AdjBounded (w : World) : Prop :=
  ∀ i < w.cellCount, ∀ j ∈ w.adjacency i, j < w.cellCount

/-! ## `World.smoothMap`

One iteration replaces every cell's value by the mean of itself and its
cached neighbors (`sum` starts at `current[i]` with `count = 1`, each
neighbor adds to both); iterations are double-buffered, so an iteration
only ever reads the previous iteration's values — which is exactly a
functional update of the whole array. -/

def smoothStep (w : World) (f : ℕ → ℚ) : ℕ → ℚ := fun i =>
  if i < w.cellCount then
    ((w.adjacency i).foldl (fun s n => s + f n) (f i)) /
      (((w.adjacency i).length : ℚ) + 1)
  else f i

def World.smoothMap (w : World) (data : ℕ → ℚ) : ℕ → (ℕ → ℚ)
  | 0 => data
  | k + 1 => w.smoothMap (smoothStep w data) k

theorem foldl_add_map (f : ℕ → ℚ) :
    ∀ (lst : List ℕ) (a : ℚ),
      lst.foldl (fun s n => s + f n) a = a + (lst.map f).sum := by
  intro lst
  induction lst with
  | nil => intro a; simp
  | cons x t ih =>
    intro a
    simp only [List.foldl_cons, List.map_cons, List.sum_cons, ih]
    ring

theorem sum_map_const (f : ℕ → ℚ) (c : ℚ) :
    ∀ (lst : List ℕ), (∀ n ∈ lst, f n = c) →
      (lst.map f).sum = (lst.length : ℚ) * c := by
  intro lst
  induction lst with
  | nil => intro _; simp
  | cons x t ih =>
    intro h
    simp only [List.map_cons, List.sum_cons, List.length_cons,
      h x (List.mem_cons_self x t), ih fun n hn => h n (List.mem_cons_of_mem x hn)]
    push_cast
    ring

theorem smoothStep_const (w : World) (hadj : w.AdjBounded) (f : ℕ → ℚ)
    (c : ℚ) (hf : ∀ i < w.cellCount, f i = c) :
    ∀ i < w.cellCount, smoothStep w f i = c := by
  intro i hi
  have hnb : ∀ n ∈ w.adjacency i, f n = c := fun n hn =>
    hf n (hadj i hi n hn)
  rw [smoothStep, if_pos hi, foldl_add_map, sum_map_const f c _ hnb,
    hf i hi]
  have hne : ((w.adjacency i).length : ℚ) + 1 ≠ 0 := by positivity
  field_simp
  ring

/-- C7: smoothing (any number of neighbor-averaging iterations of
`smoothMap`, double-buffered) leaves a field that holds the same value `c`
at every cell unchanged at every cell. -/
theorem C7_smooth_uniform_fixed (w : World) (hadj : w.AdjBounded)
    (f : ℕ → ℚ) (c : ℚ) (hf : ∀ i < w.cellCount, f i = c) (k : ℕ) :
    ∀ i < w.cellCount, w.smoothMap f k i = c := by
  induction k generalizing f with
  | zero => exact hf
  | succ k ih =>
    exact ih (smoothStep w f) (smoothStep_const w hadj f c hf)

/-! A tiny concrete world used to instantiate theorems with hypotheses. -/

def exampleWorld2 : World where
  cellCount := 2
  adjacency := fun i => if i = 0 then [1] else if i = 1 then [0] else []
  elevations := fun i => if i = 0 then 1 else 2
  moisture := fun _ => 0
  points := fun i => ((i : ℚ), 0)

unseal Rat.add Rat.sub Rat.mul Rat.inv Rat.ofScientific in
/-- Witness for C7 at a concrete world, uniform value `3`, two iterations. -/
theorem C7_smooth_uniform_fixed_witness :
    exampleWorld2.AdjBounded ∧
      (∀ i < exampleWorld2.cellCount, (fun _ : ℕ => (3 : ℚ)) i = 3) ∧
      ∀ i < exampleWorld2.cellCount,
        exampleWorld2.smoothMap (fun _ => (3 : ℚ)) 2 i = 3 :=
  ⟨by unfold World.AdjBounded; decide, by decide,
    C7_smooth_uniform_fixed exampleWorld2 (by unfold World.AdjBounded; decide)
      _ 3 (by decide) 2⟩

/-! ## `World.fillSinks` (drainage enforcement)

State of the `fillSinks` loop: the elevation array, the `visited` markers
and the priority queue's backing array.  The TS comparator closure
`(a, b) => this.elevations[a] - this.elevations[b]` reads the mutable
elevation array live, so each heap operation receives the comparator
built from the current elevations. -/

def sinkCmp (elev : ℕ → ℚ) : ℕ → ℕ → ℚ := fun a b => elev a - elev b

structure SinkState where
  elevations : ℕ → ℚ
  visited : ℕ → Bool
  heap : List ℕ

/-- Body of the `for`-loop over the neighbors of the popped cell `u`:
skip visited neighbors; raise a strictly lower neighbor to
`elevations[u] + epsilon` (`epsilon = 1e-5`); mark visited and push. -/
def sinkVisit (u : ℕ) (s : SinkState) (v : ℕ) : SinkState :=
  if s.visited v then s
  else
    let e := if s.elevations v < s.elevations u then
        Function.update s.elevations v (s.elevations u + 0.00001)
      else s.elevations
    { elevations := e
      visited := Function.update s.visited v true
      heap := push (sinkCmp e) s.heap v }

/-- The `while (heap.length > 0)` loop of `fillSinks`, fuel-indexed. -/
def sinkLoop (adj : ℕ → List ℕ) : ℕ → SinkState → SinkState
  | 0, s => s
  | fuel + 1, s =>
    if s.heap.length = 0 then s
    else
      let p := pop (sinkCmp s.elevations) s.heap
      match p.1 with
      | none => s
      | some u =>
        sinkLoop adj fuel
          ((adj u).foldl (sinkVisit u) ⟨s.elevations, s.visited, p.2⟩)

/-- Body of the seeding loop of `fillSinks`: push a cell of elevation
`≤ 0` and mark it visited (elevations are not modified while seeding). -/
def sinkSeed (w : World) (s : SinkState) (i : ℕ) : SinkState :=
  if w.elevations i ≤ 0 then
    { s with
      heap := push (sinkCmp s.elevations) s.heap i
      visited := Function.update s.visited i true }
  else s

/-- The seeding loop of `fillSinks` over all cells. -/
def sinkInit (w : World) : SinkState :=
  (List.range w.cellCount).foldl (sinkSeed w) ⟨w.elevations, fun _ => false, []⟩

/-- `fillSinks`: seed the queue with every cell of elevation `≤ 0`
(marking it visited), then run the greedy loop.  The fuel `cellCount`
is proven sufficient to drain the queue (`sinkLoop_inv`). -/
def World.fillSinks (w : World) : World :=
  { w with
    elevations :=
      (sinkLoop w.adjacency w.cellCount (sinkInit w)).elevations }

/-- A below-sea-level cell of the world: a drainage seed of `fillSinks`. -/
def Seed (w : World) (i : ℕ) : Prop :=
  i < w.cellCount ∧ w.elevations i ≤ 0

/-- Reachability in the cached adjacency graph from a set `P` of start
cells (following the stored neighbor lists). -/
inductive Reach (adj : ℕ → List ℕ) (P : ℕ → Prop) : ℕ → Prop
  | base (i : ℕ) : P i → Reach adj P i
  | step (u v : ℕ) : Reach adj P u → v ∈ adj u → Reach adj P v

/-- `DrainsTo adj elev p c`: starting at `c` and stepping through the
cells listed in `p`, every step moves to a neighbor (in either direction
of the cached adjacency) of weakly lower elevation, and the last cell
(`c` itself for `p = []`) has elevation `≤ 0`. -/
def DrainsTo (adj : ℕ → List ℕ) (elev : ℕ → ℚ) : List ℕ → ℕ → Prop
  | [], c => elev c ≤ 0
  | v :: p, c => (v ∈ adj c ∨ c ∈ adj v) ∧ elev v ≤ elev c ∧ DrainsTo adj elev p v

/-! ### Invariants of the `fillSinks` loop -/

theorem mem_push {T : Type} [Inhabited T] [DecidableEq T] (cmp : T → T → ℚ)
    (l : List T) (x a : T) : a ∈ push cmp l x ↔ a ∈ l ∨ a = x := by
  have h1 : a ∈ push cmp l x ↔ 0 < (push cmp l x).count a :=
    List.count_pos_iff.symm
  have h2 : a ∈ l ↔ 0 < l.count a := List.count_pos_iff.symm
  rw [h1, h2, count_push]
  rcases eq_or_ne x a with rfl | hne
  · simp
  · simp [eq_comm (a := a), hne]

theorem nodup_push {T : Type} [Inhabited T] [DecidableEq T] (cmp : T → T → ℚ)
    (l : List T) (x : T) (hl : l.Nodup) (hx : x ∉ l) :
    (push cmp l x).Nodup := by
  rw [List.nodup_iff_count_le_one] at hl ⊢
  intro a
  rw [count_push]
  rcases eq_or_ne x a with rfl | hne
  · have : l.count x = 0 := List.count_eq_zero_of_not_mem hx
    simp [this]
  · simp only [if_neg hne]
    have := hl a
    omega

theorem DrainsTo_congr (adj : ℕ → List ℕ) (e1 e2 : ℕ → ℚ) :
    ∀ (p : List ℕ) (c : ℕ), DrainsTo adj e1 p c → e1 c = e2 c →
      (∀ x ∈ p, e1 x = e2 x) → DrainsTo adj e2 p c := by
  intro p
  induction p with
  | nil =>
    intro c h hc _
    simpa [DrainsTo, ← hc] using h
  | cons v q ih =>
    intro c h hc hp
    obtain ⟨hvadj, hle, hrest⟩ := h
    have hv : e1 v = e2 v := hp v (List.mem_cons_self v q)
    exact ⟨hvadj, by rw [← hv, ← hc]; exact hle,
      ih v hrest hv fun x hx => hp x (List.mem_cons_of_mem v hx)⟩

/-- Termination measure of the `fillSinks` loop: queue size plus the
number of unvisited cells. -/
def sinkMeasure (w : World) (s : SinkState) : ℕ :=
  s.heap.length +
    ((Finset.range w.cellCount).filter (fun i => s.visited i = false)).card

/-- Facts maintained at every point of the `fillSinks` run (relative to
the initial world `w`), except for the adjacency-closure property of
popped cells. -/
structure SinkInvCore (w : World) (s : SinkState) : Prop where
  elevLower : ∀ i, w.elevations i ≤ s.elevations i
  unvisitedEq : ∀ i, s.visited i = false → s.elevations i = w.elevations i
  seedEq : ∀ i, Seed w i → s.elevations i = w.elevations i
  seedVisited : ∀ i, Seed w i → s.visited i = true
  visitedReach : ∀ i, s.visited i = true → Reach w.adjacency (Seed w) i
  visitedBounded : ∀ i, s.visited i = true → i < w.cellCount
  heapVisited : ∀ i ∈ s.heap, s.visited i = true
  heapNodup : s.heap.Nodup
  path : ∀ i, s.visited i = true →
    ∃ p, DrainsTo w.adjacency s.elevations p i ∧ ∀ x ∈ p, s.visited x = true

/-- The full loop invariant: every visited cell that has left the queue
has all its neighbors visited. -/
structure SinkInv (w : World) (s : SinkState)
    extends SinkInvCore w s : Prop where
  closure : ∀ u, s.visited u = true → u ∉ s.heap →
    ∀ v ∈ w.adjacency u, s.visited v = true

/-- Invariant during the neighbor fold for the popped cell `u` (whose
closure property is being established). -/
structure SinkFoldInv (w : World) (u : ℕ) (s : SinkState)
    extends SinkInvCore w s : Prop where
  closureExcept : ∀ x, x ≠ u → s.visited x = true → x ∉ s.heap →
    ∀ v ∈ w.adjacency x, s.visited v = true
  uVisited : s.visited u = true
  uNotInHeap : u ∉ s.heap

theorem sinkVisit_of_visited (u v : ℕ) (s : SinkState)
    (hvis : s.visited v = true) : sinkVisit u s v = s := by
  rw [sinkVisit, if_pos hvis]

theorem sinkVisit_of_unvisited (u v : ℕ) (s : SinkState)
    (hvis : s.visited v = false) :
    sinkVisit u s v =
      { elevations :=
          if s.elevations v < s.elevations u then
            Function.update s.elevations v (s.elevations u + 0.00001)
          else s.elevations
        visited := Function.update s.visited v true
        heap :=
          push
            (sinkCmp
              (if s.elevations v < s.elevations u then
                Function.update s.elevations v (s.elevations u + 0.00001)
              else s.elevations))
            s.heap v } := by
  rw [sinkVisit, if_neg (by simp [hvis])]

theorem update_true_mono (g : ℕ → Bool) (v x : ℕ) (hx : g x = true) :
    Function.update g v true x = true := by
  rcases eq_or_ne x v with rfl | hne
  · simp
  · simpa [Function.update_noteq hne] using hx

/-- One step of the neighbor loop preserves the fold invariant, marks the
neighbor visited, preserves the loop measure, and keeps every visited
cell visited. -/
theorem sinkVisit_step (w : World) (hadj : w.AdjBounded) (u v : ℕ)
    (hv : v ∈ w.adjacency u) (s : SinkState) (h : SinkFoldInv w u s) :
    SinkFoldInv w u (sinkVisit u s v) ∧
      (sinkVisit u s v).visited v = true ∧
      sinkMeasure w (sinkVisit u s v) = sinkMeasure w s ∧
      (∀ x, s.visited x = true → (sinkVisit u s v).visited x = true) := by
  have hu_lt : u < w.cellCount := h.visitedBounded u h.uVisited
  have hv_lt : v < w.cellCount := hadj u hu_lt v hv
  rcases hvis : s.visited v with hf | ht
  · -- v is unvisited: raise if necessary, mark visited, push
    have hvu : v ≠ u := fun he => by rw [he, h.uVisited] at hvis; cases hvis
    have hvheap : v ∉ s.heap := fun hm => by
      rw [h.heapVisited v hm] at hvis; cases hvis
    rw [sinkVisit_of_unvisited u v s hvis]
    set e := if s.elevations v < s.elevations u then
        Function.update s.elevations v (s.elevations u + 0.00001)
      else s.elevations with he
    have heps : (0 : ℚ) < 0.00001 := by norm_num
    have hother : ∀ x, x ≠ v → e x = s.elevations x := by
      intro x hx
      rw [he]
      split
      · exact Function.update_noteq hx _ _
      · rfl
    have hvge : s.elevations v ≤ e v := by
      rw [he]
      split
      · next hlt => rw [Function.update_same]; linarith
      · exact le_refl _
    have huv : s.elevations u ≤ e v := by
      rw [he]
      split
      · next hlt => rw [Function.update_same]; linarith
      · next hlt => exact le_of_not_lt hlt
    have hvis_new : ∀ x, Function.update s.visited v true x = true ↔
        x = v ∨ s.visited x = true := by
      intro x
      rcases eq_or_ne x v with rfl | hne
      · simp
      · simp [Function.update_noteq hne, hne]
    refine ⟨⟨⟨?_, ?_, ?_, ?_, ?_, ?_, ?_, ?_, ?_⟩, ?_, ?_, ?_⟩, ?_, ?_, ?_⟩
    · -- elevLower
      intro i
      dsimp only
      rcases eq_or_ne i v with heq | hne
      · subst heq; exact le_trans (h.elevLower _) hvge
      · rw [hother i hne]; exact h.elevLower i
    · -- unvisitedEq
      intro i hi
      dsimp only at hi ⊢
      have hiv : i ≠ v := by
        intro he2; rw [he2, Function.update_same] at hi; cases hi
      rw [hother i hiv]
      rw [Function.update_noteq hiv] at hi
      exact h.unvisitedEq i hi
    · -- seedEq
      intro i hi
      dsimp only
      have hvisi := h.seedVisited i hi
      have hiv : i ≠ v := fun he2 => by rw [he2, hvis] at hvisi; cases hvisi
      rw [hother i hiv]
      exact h.seedEq i hi
    · -- seedVisited
      intro i hi
      dsimp only
      exact update_true_mono s.visited v i (h.seedVisited i hi)
    · -- visitedReach
      intro i hi
      dsimp only at hi
      rcases (hvis_new i).mp hi with heq | hi2
      · subst heq; exact Reach.step u i (h.visitedReach u h.uVisited) hv
      · exact h.visitedReach i hi2
    · -- visitedBounded
      intro i hi
      dsimp only at hi
      rcases (hvis_new i).mp hi with heq | hi2
      · subst heq; exact hv_lt
      · exact h.visitedBounded i hi2
    · -- heapVisited
      intro i hi
      dsimp only at hi ⊢
      rw [mem_push] at hi
      rcases hi with hi | heq
      · exact update_true_mono s.visited v i (h.heapVisited i hi)
      · subst heq; simp
    · -- heapNodup
      dsimp only
      exact nodup_push _ s.heap v h.heapNodup hvheap
    · -- path
      intro i hi
      dsimp only at hi ⊢
      rcases (hvis_new i).mp hi with heq | hi2
      · subst heq
        obtain ⟨pu, hpu, hpuvis⟩ := h.path u h.uVisited
        have hpu_ne : ∀ x ∈ pu, x ≠ i := by
          intro x hx he2
          rw [he2] at hx
          rw [hpuvis i hx] at hvis
          cases hvis
        refine ⟨u :: pu, ⟨Or.inr hv, ?_, ?_⟩, ?_⟩
        · rw [hother u (Ne.symm hvu)]; exact huv
        · exact DrainsTo_congr w.adjacency s.elevations e pu u hpu
            (hother u (Ne.symm hvu)).symm fun x hx => (hother x (hpu_ne x hx)).symm
        · intro x hx
          rcases List.mem_cons.mp hx with heq2 | hx2
          · subst heq2; exact update_true_mono s.visited _ x h.uVisited
          · exact update_true_mono s.visited _ x (hpuvis x hx2)
      · obtain ⟨p, hp, hpvis⟩ := h.path i hi2
        have hmem_ne : ∀ x ∈ p, x ≠ v := by
          intro x hx he2
          rw [he2] at hx
          rw [hpvis v hx] at hvis
          cases hvis
        have hine : i ≠ v := fun he2 => by
          rw [he2, hvis] at hi2; cases hi2
        refine ⟨p, DrainsTo_congr w.adjacency s.elevations e p i hp
          (hother i hine).symm (fun x hx => (hother x (hmem_ne x hx)).symm), ?_⟩
        intro x hx
        exact update_true_mono s.visited v x (hpvis x hx)
    · -- closureExcept
      intro x hxu hxvis hxheap
      dsimp only at hxvis hxheap ⊢
      have hxv : x ≠ v := by
        intro he2
        subst he2
        exact hxheap ((mem_push _ s.heap x x).mpr (Or.inr rfl))
      have hxvis2 : s.visited x = true := by
        rcases (hvis_new x).mp hxvis with heq | hx2
        · exact absurd heq hxv
        · exact hx2
      have hxheap2 : x ∉ s.heap := fun hm =>
        hxheap ((mem_push _ s.heap v x).mpr (Or.inl hm))
      intro y hy
      exact update_true_mono s.visited v y (h.closureExcept x hxu hxvis2 hxheap2 y hy)
    · -- uVisited
      dsimp only
      exact update_true_mono s.visited v u h.uVisited
    · -- uNotInHeap
      dsimp only
      intro hm
      rcases (mem_push _ s.heap v u).mp hm with hm2 | hm2
      · exact h.uNotInHeap hm2
      · exact hvu hm2.symm
    · -- v is visited afterwards
      dsimp only
      simp
    · -- measure preserved
      unfold sinkMeasure
      dsimp only
      simp only [length_push]
      have hfilter :
          (Finset.range w.cellCount).filter
              (fun i => Function.update s.visited v true i = false) =
            ((Finset.range w.cellCount).filter
              (fun i => s.visited i = false)).erase v := by
        ext i
        simp only [Finset.mem_filter, Finset.mem_erase, Finset.mem_range]
        constructor
        · intro ⟨hi1, hi2⟩
          have hiv : i ≠ v := by
            intro he2
            rw [he2] at hi2
            simp at hi2
          rw [Function.update_noteq hiv] at hi2
          exact ⟨hiv, hi1, hi2⟩
        · intro ⟨hiv, hi1, hi2⟩
          rw [Function.update_noteq hiv]
          exact ⟨hi1, hi2⟩
      rw [hfilter]
      have hvmem : v ∈ (Finset.range w.cellCount).filter
          (fun i => s.visited i = false) := by
        simp [Finset.mem_filter, hv_lt, hvis]
      rw [Finset.card_erase_of_mem hvmem]
      have : 1 ≤ ((Finset.range w.cellCount).filter
          (fun i => s.visited i = false)).card :=
        Finset.card_pos.mpr ⟨v, hvmem⟩
      omega
    · -- visited monotone
      intro x hx
      exact update_true_mono s.visited v x hx
  · -- v already visited: no-op
    rw [sinkVisit_of_visited u v s hvis]
    exact ⟨h, hvis, rfl, fun x hx => hx⟩

/-- The whole neighbor fold preserves the fold invariant, marks every
neighbor of `u` visited, and preserves the loop measure. -/
theorem sinkVisit_fold (w : World) (hadj : w.AdjBounded) (u : ℕ) :
    ∀ (vs : List ℕ) (s : SinkState), (∀ v ∈ vs, v ∈ w.adjacency u) →
      SinkFoldInv w u s →
      SinkFoldInv w u (vs.foldl (sinkVisit u) s) ∧
        (∀ v ∈ vs, (vs.foldl (sinkVisit u) s).visited v = true) ∧
        sinkMeasure w (vs.foldl (sinkVisit u) s) = sinkMeasure w s ∧
        (∀ x, s.visited x = true →
          (vs.foldl (sinkVisit u) s).visited x = true) := by
  intro vs
  induction vs with
  | nil =>
    intro s _ h
    exact ⟨h, by simp, rfl, fun x hx => hx⟩
  | cons v t ih =>
    intro s hvs h
    simp only [List.foldl_cons]
    obtain ⟨h1, h2, h3, h4⟩ := sinkVisit_step w hadj u v (hvs v (by simp)) s h
    obtain ⟨g1, g2, g3, g4⟩ :=
      ih (sinkVisit u s v) (fun x hx => hvs x (List.mem_cons_of_mem v hx)) h1
    refine ⟨g1, ?_, by rw [g3, h3], fun x hx => g4 x (h4 x hx)⟩
    intro x hx
    rcases List.mem_cons.mp hx with heq | hx2
    · subst heq; exact g4 x h2
    · exact g2 x hx2

theorem foldInv_to_inv (w : World) (u : ℕ) (s : SinkState)
    (h : SinkFoldInv w u s)
    (hn : ∀ v ∈ w.adjacency u, s.visited v = true) : SinkInv w s :=
  ⟨h.toSinkInvCore, fun x hxvis hxheap v hv => by
    rcases eq_or_ne x u with rfl | hne
    · exact hn v hv
    · exact h.closureExcept x hne hxvis hxheap v hv⟩

/-- Popping the queue head of a state satisfying the loop invariant yields
a visited in-range cell and a state satisfying the fold invariant, with
the measure decreased by exactly one. -/
theorem sink_pop_foldInv (w : World) (s : SinkState) (h : SinkInv w s)
    (hne : s.heap.length ≠ 0) :
    ∃ u, (pop (sinkCmp s.elevations) s.heap).1 = some u ∧
      s.visited u = true ∧
      SinkFoldInv w u
        ⟨s.elevations, s.visited, (pop (sinkCmp s.elevations) s.heap).2⟩ ∧
      sinkMeasure w
          ⟨s.elevations, s.visited, (pop (sinkCmp s.elevations) s.heap).2⟩ + 1 =
        sinkMeasure w s := by
  have hlen : 0 < s.heap.length := by omega
  refine ⟨s.heap[0], pop_fst (sinkCmp s.elevations) s.heap hlen, ?_, ?_, ?_⟩
  · exact h.heapVisited _ (List.getElem_mem hlen)
  · have hcount := fun b => count_pop (sinkCmp s.elevations) s.heap hlen b
    have hmem_rest : ∀ x, x ∈ (pop (sinkCmp s.elevations) s.heap).2 →
        x ∈ s.heap := by
      intro x hx
      have h1 : 0 < (pop (sinkCmp s.elevations) s.heap).2.count x :=
        List.count_pos_iff.mpr hx
      have := hcount x
      have h2 : 0 < s.heap.count x := by omega
      exact List.count_pos_iff.mp h2
    have hnodup_heap := h.heapNodup
    rw [List.nodup_iff_count_le_one] at hnodup_heap
    refine ⟨⟨?_, ?_, ?_, ?_, ?_, ?_, ?_, ?_, ?_⟩, ?_, ?_, ?_⟩
    · exact h.elevLower
    · exact h.unvisitedEq
    · exact h.seedEq
    · exact h.seedVisited
    · exact h.visitedReach
    · exact h.visitedBounded
    · intro i hi
      dsimp only at hi
      exact h.heapVisited i (hmem_rest i hi)
    · rw [List.nodup_iff_count_le_one]
      intro a
      dsimp only
      have := hcount a
      have := hnodup_heap a
      omega
    · exact h.path
    · -- closureExcept
      intro x hxu hxvis hxheap v hv
      dsimp only at hxheap
      refine h.closure x hxvis ?_ v hv
      intro hxmem
      have h1 : 0 < s.heap.count x := List.count_pos_iff.mpr hxmem
      have h2 := hcount x
      have h4 : (pop (sinkCmp s.elevations) s.heap).2.count x = 0 :=
        List.count_eq_zero_of_not_mem hxheap
      rw [if_neg (fun he : s.heap[0] = x => hxu he.symm)] at h2
      omega
    · exact h.heapVisited _ (List.getElem_mem hlen)
    · -- the popped head is no longer in the queue
      dsimp only
      intro hmem
      have h1 : 0 < (pop (sinkCmp s.elevations) s.heap).2.count s.heap[0] :=
        List.count_pos_iff.mpr hmem
      have h2 := hcount s.heap[0]
      have h3 := hnodup_heap s.heap[0]
      have h4 : 0 < s.heap.count s.heap[0] :=
        List.count_pos_iff.mpr (List.getElem_mem hlen)
      rw [if_pos rfl] at h2
      omega
  · unfold sinkMeasure
    dsimp only
    rw [length_pop (sinkCmp s.elevations) s.heap hlen]
    omega

theorem sinkInitAux_spec (w : World) : ∀ n : ℕ,
    ((List.range n).foldl (sinkSeed w)
        ⟨w.elevations, fun _ => false, []⟩).elevations = w.elevations ∧
    (∀ i, ((List.range n).foldl (sinkSeed w)
        ⟨w.elevations, fun _ => false, []⟩).visited i = true ↔
      i < n ∧ w.elevations i ≤ 0) ∧
    (∀ i, ((List.range n).foldl (sinkSeed w)
        ⟨w.elevations, fun _ => false, []⟩).heap.count i =
      if i < n ∧ w.elevations i ≤ 0 then 1 else 0) := by
  intro n
  induction n with
  | zero =>
    refine ⟨rfl, fun i => by simp, fun i => by simp⟩
  | succ n ih =>
    obtain ⟨ih1, ih2, ih3⟩ := ih
    rw [List.range_succ, List.foldl_append, List.foldl_cons, List.foldl_nil]
    set sn := (List.range n).foldl (sinkSeed w)
      (⟨w.elevations, fun _ => false, []⟩ : SinkState) with hsn
    unfold sinkSeed
    split
    · next hle =>
      refine ⟨ih1, ?_, ?_⟩
      · intro i
        dsimp only
        rcases eq_or_ne i n with rfl | hne
        · simp [hle]
        · rw [Function.update_noteq hne, ih2 i]
          have : i < n ↔ i < n + 1 := by omega
          tauto
      · intro i
        dsimp only
        rw [count_push, ih3 i]
        rcases eq_or_ne n i with rfl | hne
        · rw [if_neg (fun hx => Nat.lt_irrefl n hx.1), if_pos rfl,
            if_pos ⟨Nat.lt_succ_self n, hle⟩]
        · rw [if_neg hne]
          by_cases h2 : i < n
          · by_cases h1 : w.elevations i ≤ 0
            · rw [if_pos ⟨h2, h1⟩, if_pos ⟨by omega, h1⟩]
            · rw [if_neg (fun hx => h1 hx.2), if_neg (fun hx => h1 hx.2)]
          · have h2b : ¬ i < n + 1 := by omega
            rw [if_neg (fun hx => h2 hx.1), if_neg (fun hx => h2b hx.1)]
    · next hle =>
      refine ⟨ih1, ?_, ?_⟩
      · intro i
        rw [ih2 i]
        rcases eq_or_ne i n with rfl | hne
        · constructor
          · rintro ⟨h1, _⟩; omega
          · rintro ⟨h1, h2⟩; exact absurd h2 hle
        · have : i < n ↔ i < n + 1 := by omega
          tauto
      · intro i
        rw [ih3 i]
        rcases eq_or_ne i n with rfl | hne
        · rw [if_neg (fun hx => Nat.lt_irrefl i hx.1),
            if_neg (fun hx => hle hx.2)]
        · by_cases h2 : i < n
          · by_cases h1 : w.elevations i ≤ 0
            · rw [if_pos ⟨h2, h1⟩, if_pos ⟨by omega, h1⟩]
            · rw [if_neg (fun hx => h1 hx.2), if_neg (fun hx => h1 hx.2)]
          · have h2b : ¬ i < n + 1 := by omega
            rw [if_neg (fun hx => h2 hx.1), if_neg (fun hx => h2b hx.1)]

/-- The seeded initial state satisfies the loop invariant and has measure
exactly the cell count. -/
theorem sinkInit_inv (w : World) :
    SinkInv w (sinkInit w) ∧ sinkMeasure w (sinkInit w) ≤ w.cellCount := by
  obtain ⟨h1, h2, h3⟩ := sinkInitAux_spec w w.cellCount
  rw [show (List.range w.cellCount).foldl (sinkSeed w)
      ⟨w.elevations, fun _ => false, []⟩ = sinkInit w from rfl] at h1 h2 h3
  have hnodup : (sinkInit w).heap.Nodup := by
    rw [List.nodup_iff_count_le_one]
    intro a
    rw [h3 a]
    split <;> omega
  have hmem : ∀ i, i ∈ (sinkInit w).heap ↔
      i < w.cellCount ∧ w.elevations i ≤ 0 := by
    intro i
    rw [← List.count_pos_iff, h3 i]
    split <;> simp_all
  constructor
  · refine ⟨⟨?_, ?_, ?_, ?_, ?_, ?_, ?_, hnodup, ?_⟩, ?_⟩
    · intro i; rw [h1]
    · intro i _; rw [h1]
    · intro i _; rw [h1]
    · intro i hi; exact (h2 i).mpr ⟨hi.1, hi.2⟩
    · intro i hi
      exact Reach.base i ⟨((h2 i).mp hi).1, ((h2 i).mp hi).2⟩
    · intro i hi; exact ((h2 i).mp hi).1
    · intro i hi; exact (h2 i).mpr ((hmem i).mp hi)
    · intro i hi
      refine ⟨[], ?_, by simp⟩
      show (sinkInit w).elevations i ≤ 0
      rw [h1]
      exact ((h2 i).mp hi).2
    · intro u hu huheap v _
      exact absurd ((hmem u).mpr ((h2 u).mp hu)) huheap
  · unfold sinkMeasure
    have hlen : (sinkInit w).heap.length =
        ((Finset.range w.cellCount).filter
          (fun i => (sinkInit w).visited i = true)).card := by
      rw [← List.toFinset_card_of_nodup hnodup]
      congr 1
      ext i
      rw [List.mem_toFinset, hmem i, Finset.mem_filter, Finset.mem_range, h2 i]
      tauto
    rw [hlen]
    have hsplit := Finset.filter_card_add_filter_neg_card_eq_card
      (s := Finset.range w.cellCount)
      (p := fun i => (sinkInit w).visited i = true)
    have hcongr : (Finset.range w.cellCount).filter
        (fun i => ¬ (sinkInit w).visited i = true) =
        (Finset.range w.cellCount).filter
          (fun i => (sinkInit w).visited i = false) := by
      ext i
      simp [Finset.mem_filter]
    rw [hcongr] at hsplit
    rw [Finset.card_range] at hsplit
    omega

/-- The `fillSinks` loop preserves the invariant and, given fuel at least
the measure, drains the queue completely. -/
theorem sinkLoop_inv (w : World) (hadj : w.AdjBounded) :
    ∀ (fuel : ℕ) (s : SinkState), SinkInv w s → sinkMeasure w s ≤ fuel →
      SinkInv w (sinkLoop w.adjacency fuel s) ∧
        (sinkLoop w.adjacency fuel s).heap = [] := by
  intro fuel
  induction fuel with
  | zero =>
    intro s h hm
    have : s.heap.length = 0 := by
      unfold sinkMeasure at hm
      omega
    exact ⟨h, List.eq_nil_of_length_eq_zero this⟩
  | succ fuel ih =>
    intro s h hm
    rw [sinkLoop]
    by_cases hheap : s.heap.length = 0
    · rw [if_pos hheap]
      exact ⟨h, List.eq_nil_of_length_eq_zero hheap⟩
    · rw [if_neg hheap]
      obtain ⟨u, hu1, hu2, hfold, hmeas⟩ := sink_pop_foldInv w s h hheap
      dsimp only
      rw [hu1]
      obtain ⟨g1, g2, g3, _⟩ := sinkVisit_fold w hadj u (w.adjacency u)
        ⟨s.elevations, s.visited, (pop (sinkCmp s.elevations) s.heap).2⟩
        (fun v hv => hv) hfold
      exact ih _ (foldInv_to_inv w u _ g1 g2) (by omega)

/-- The state the `fillSinks` loop ends in. -/
theorem fillSinks_final (w : World) (hadj : w.AdjBounded) :
    SinkInv w (sinkLoop w.adjacency w.cellCount (sinkInit w)) ∧
      (sinkLoop w.adjacency w.cellCount (sinkInit w)).heap = [] := by
  obtain ⟨h1, h2⟩ := sinkInit_inv w
  exact sinkLoop_inv w hadj w.cellCount (sinkInit w) h1 h2

/-- Every cell reachable from a seed is visited when the queue drains. -/
theorem fillSinks_reach_visited (w : World) (hadj : w.AdjBounded) (c : ℕ)
    (hc : Reach w.adjacency (Seed w) c) :
    (sinkLoop w.adjacency w.cellCount (sinkInit w)).visited c = true := by
  obtain ⟨hInv, hheap⟩ := fillSinks_final w hadj
  induction hc with
  | base i hi => exact hInv.seedVisited i hi
  | step u v hu hv ih => exact hInv.closure u ih (by simp [hheap]) v hv

/-- C1: after `fillSinks`, every cell with elevation `> 0` that is
reachable in the adjacency graph from a below-sea-level cell has a path
through neighbors to a below-sea-level cell along which the (final)
elevation is non-increasing at every step. -/
theorem C1_fillSinks_drainage (w : World) (hadj : w.AdjBounded) (c : ℕ)
    (hreach : Reach w.adjacency (Seed w) c)
    (hpos : 0 < w.fillSinks.elevations c) :
    ∃ p, DrainsTo w.adjacency w.fillSinks.elevations p c := by
  obtain ⟨hInv, hheap⟩ := fillSinks_final w hadj
  obtain ⟨p, hp, _⟩ := hInv.path c (fillSinks_reach_visited w hadj c hreach)
  exact ⟨p, hp⟩

/-- C10: `fillSinks` never decreases an elevation; only cells with
initial elevation `> 0` reachable from a seed can change; cells of
elevation `≤ 0` and unreachable cells keep their elevation; and no field
of the world other than `elevations` is modified. -/
theorem C10_fillSinks_frame (w : World) (hadj : w.AdjBounded) :
    (∀ i, w.elevations i ≤ w.fillSinks.elevations i) ∧
    (∀ i, w.fillSinks.elevations i ≠ w.elevations i →
      0 < w.elevations i ∧ Reach w.adjacency (Seed w) i) ∧
    (∀ i, w.elevations i ≤ 0 → w.fillSinks.elevations i = w.elevations i) ∧
    (∀ i, ¬ Reach w.adjacency (Seed w) i →
      w.fillSinks.elevations i = w.elevations i) ∧
    w.fillSinks.moisture = w.moisture ∧
    w.fillSinks.adjacency = w.adjacency ∧
    w.fillSinks.points = w.points ∧
    w.fillSinks.cellCount = w.cellCount := by
  obtain ⟨hInv, hheap⟩ := fillSinks_final w hadj
  have hchanged_vis : ∀ i, w.fillSinks.elevations i ≠ w.elevations i →
      (sinkLoop w.adjacency w.cellCount (sinkInit w)).visited i = true := by
    intro i hi
    rcases hv : (sinkLoop w.adjacency w.cellCount (sinkInit w)).visited i with h | h
    · exact absurd (hInv.unvisitedEq i hv) hi
    · rfl
  refine ⟨fun i => hInv.elevLower i, ?_, ?_, ?_, rfl, rfl, rfl, rfl⟩
  · intro i hi
    have hvis := hchanged_vis i hi
    have hlt := hInv.visitedBounded i hvis
    refine ⟨?_, hInv.visitedReach i hvis⟩
    by_contra hnot
    exact hi (hInv.seedEq i ⟨hlt, by linarith⟩)
  · intro i hle
    by_cases hlt : i < w.cellCount
    · exact hInv.seedEq i ⟨hlt, hle⟩
    · rcases hv : (sinkLoop w.adjacency w.cellCount (sinkInit w)).visited i
        with h | h
      · exact hInv.unvisitedEq i hv
      · exact absurd (hInv.visitedBounded i hv) hlt
  · intro i hnr
    rcases hv : (sinkLoop w.adjacency w.cellCount (sinkInit w)).visited i
      with h | h
    · exact hInv.unvisitedEq i hv
    · exact absurd (hInv.visitedReach i hv) hnr

/-- Three-cell line world: a seed at `0`, a ridge at `1`, a pit at `2`;
`fillSinks` raises cell `2` above cell `1`. -/
def exampleWorld3 : World where
  cellCount := 3
  adjacency := fun i =>
    if i = 0 then [1] else if i = 1 then [0, 2] else if i = 2 then [1] else []
  elevations := fun i => if i = 0 then -1 else if i = 1 then 2 else 1
  moisture := fun _ => 0
  points := fun i => ((i : ℚ), 0)

unseal Rat.add Rat.sub Rat.mul Rat.inv Rat.ofScientific in
/-- Witness for C1: in `exampleWorld3`, cell `2` is reachable from the
seed `0` and ends above sea level, so it has a non-increasing drainage
path. -/
theorem C1_fillSinks_drainage_witness :
    exampleWorld3.AdjBounded ∧
      Reach exampleWorld3.adjacency (Seed exampleWorld3) 2 ∧
      0 < exampleWorld3.fillSinks.elevations 2 ∧
      ∃ p, DrainsTo exampleWorld3.adjacency
        exampleWorld3.fillSinks.elevations p 2 := by
  have hadj : exampleWorld3.AdjBounded := by
    unfold World.AdjBounded; decide
  have hreach : Reach exampleWorld3.adjacency (Seed exampleWorld3) 2 :=
    Reach.step 1 2
      (Reach.step 0 1 (Reach.base 0 ⟨by decide, by decide⟩) (by decide))
      (by decide)
  have hpos : 0 < exampleWorld3.fillSinks.elevations 2 := by decide
  exact ⟨hadj, hreach, hpos,
    C1_fillSinks_drainage exampleWorld3 hadj 2 hreach hpos⟩

unseal Rat.add Rat.sub Rat.mul Rat.inv Rat.ofScientific in
/-- Witness for C10 at `exampleWorld3` (where cell `2` is in fact
raised, so the frame conditions are exercised non-vacuously). -/
theorem C10_fillSinks_frame_witness :
    exampleWorld3.AdjBounded ∧
      ((∀ i, exampleWorld3.elevations i ≤
          exampleWorld3.fillSinks.elevations i) ∧
        (∀ i, exampleWorld3.fillSinks.elevations i ≠
            exampleWorld3.elevations i →
          0 < exampleWorld3.elevations i ∧
            Reach exampleWorld3.adjacency (Seed exampleWorld3) i) ∧
        (∀ i, exampleWorld3.elevations i ≤ 0 →
          exampleWorld3.fillSinks.elevations i = exampleWorld3.elevations i) ∧
        (∀ i, ¬ Reach exampleWorld3.adjacency (Seed exampleWorld3) i →
          exampleWorld3.fillSinks.elevations i = exampleWorld3.elevations i) ∧
        exampleWorld3.fillSinks.moisture = exampleWorld3.moisture ∧
        exampleWorld3.fillSinks.adjacency = exampleWorld3.adjacency ∧
        exampleWorld3.fillSinks.points = exampleWorld3.points ∧
        exampleWorld3.fillSinks.cellCount = exampleWorld3.cellCount) :=
  ⟨by unfold World.AdjBounded; decide,
    C10_fillSinks_frame exampleWorld3 (by unfold World.AdjBounded; decide)⟩

/-! ## `World.calculateDistanceToCoast` (Pass A of river generation)

A breadth-first traversal from all cells of elevation `≤ 0` over the
adjacency cache.  The JS code uses a plain array as FIFO queue with a
`queueStart` pointer; the embedding keeps only the unprocessed suffix and
appends discoveries at the end (the processed prefix is never read). -/

/-- Body of the neighbor loop of the BFS: assign `currentDist + 1` to an
undiscovered neighbor and enqueue it (`currentDist` is read before the
loop). -/
def bfsVisit (du : ℤ) (st : (ℕ → ℤ) × List ℕ) (v : ℕ) : (ℕ → ℤ) × List ℕ :=
  if st.1 v = -1 then (Function.update st.1 v (du + 1), st.2 ++ [v])
  else st

/-- The `while (queueStart < queue.length)` loop, fuel-indexed. -/
def bfsLoop (adj : ℕ → List ℕ) : ℕ → (ℕ → ℤ) → List ℕ → (ℕ → ℤ) × List ℕ
  | 0, d, q => (d, q)
  | fuel + 1, d, q =>
    match q with
    | [] => (d, [])
    | u :: rest =>
      let r := (adj u).foldl (bfsVisit (d u)) (d, rest)
      bfsLoop adj fuel r.1 r.2

/-- Body of the seeding loop of the BFS: `distance[i] = 0` and enqueue a
cell of elevation `≤ 0`. -/
def bfsSeed (w : World) (st : (ℕ → ℤ) × List ℕ) (i : ℕ) : (ℕ → ℤ) × List ℕ :=
  if w.elevations i ≤ 0 then (Function.update st.1 i 0, st.2 ++ [i])
  else st

/-- The seeding loop of the BFS over all cells (the distance array starts
filled with `-1`). -/
def bfsInit (w : World) : (ℕ → ℤ) × List ℕ :=
  (List.range w.cellCount).foldl (bfsSeed w) (fun _ => -1, [])

/-- `calculateDistanceToCoast`: BFS distances from all below-sea-level
cells; unreached cells keep the sentinel `-1`.  The fuel `cellCount` is
proven sufficient (`bfsLoop_inv`). -/
def World.calculateDistanceToCoast (w : World) : ℕ → ℤ :=
  (bfsLoop w.adjacency w.cellCount (bfsInit w).1 (bfsInit w).2).1

/-- Directed walks of a given length in the cached adjacency graph. -/
def Walk (adj : ℕ → List ℕ) : ℕ → ℕ → ℕ → Prop
  | 0, a, b => a = b
  | k + 1, a, b => ∃ c ∈ adj a, Walk adj k c b

/-- `SeedDist w k x`: some below-sea-level cell reaches `x` by a walk of
exactly `k` adjacency hops. -/
def SeedDist (w : World) (k : ℕ) (x : ℕ) : Prop :=
  ∃ s, Seed w s ∧ Walk w.adjacency k s x

theorem walk_snoc (adj : ℕ → List ℕ) :
    ∀ (k : ℕ) (a b c : ℕ), Walk adj k a b → c ∈ adj b →
      Walk adj (k + 1) a c := by
  intro k
  induction k with
  | zero =>
    intro a b c hw hc
    cases hw
    exact ⟨c, hc, rfl⟩
  | succ k ih =>
    intro a b c hw hc
    obtain ⟨m, hm, hw2⟩ := hw
    exact ⟨m, hm, ih m b c hw2 hc⟩

theorem walk_unsnoc (adj : ℕ → List ℕ) :
    ∀ (k : ℕ) (a c : ℕ), Walk adj (k + 1) a c →
      ∃ b, Walk adj k a b ∧ c ∈ adj b := by
  intro k
  induction k with
  | zero =>
    intro a c hw
    obtain ⟨m, hm, hw2⟩ := hw
    cases hw2
    exact ⟨a, rfl, hm⟩
  | succ k ih =>
    intro a c hw
    obtain ⟨m, hm, hw2⟩ := hw
    obtain ⟨b, hb1, hb2⟩ := ih m c hw2
    exact ⟨b, ⟨m, hm, hb1⟩, hb2⟩

theorem seedDist_snoc (w : World) (k : ℕ) (y x : ℕ)
    (h : SeedDist w k y) (hx : x ∈ w.adjacency y) : SeedDist w (k + 1) x := by
  obtain ⟨s, hs, hw⟩ := h
  exact ⟨s, hs, walk_snoc w.adjacency k s y x hw hx⟩

theorem seedDist_unsnoc (w : World) (k : ℕ) (x : ℕ)
    (h : SeedDist w (k + 1) x) :
    ∃ y, SeedDist w k y ∧ x ∈ w.adjacency y := by
  obtain ⟨s, hs, hw⟩ := h
  obtain ⟨y, hy1, hy2⟩ := walk_unsnoc w.adjacency k s x hw
  exact ⟨y, ⟨s, hs, hy1⟩, hy2⟩

/-- Loop invariant of the BFS (state: distance array `d`, unprocessed
queue suffix `q`). -/
structure BfsInv (w : World) (d : ℕ → ℤ) (q : List ℕ) : Prop where
  exact : ∀ x, d x ≠ -1 → 0 ≤ d x ∧ SeedDist w (d x).toNat x ∧
    (∀ j : ℕ, SeedDist w j x → d x ≤ (j : ℤ))
  sorted : List.Pairwise (fun a b => d a ≤ d b) q
  spread : ∀ a ∈ q, ∀ b ∈ q, d b ≤ d a + 1
  frontier : ∀ x, d x = -1 → ∀ j : ℕ, SeedDist w j x →
    ∀ u, q.head? = some u → d u + 1 ≤ (j : ℤ)
  procClosed : ∀ u, d u ≠ -1 → u ∉ q → ∀ v ∈ w.adjacency u, d v ≠ -1
  qDisc : ∀ u ∈ q, d u ≠ -1
  qNodup : q.Nodup
  qBounded : ∀ u ∈ q, u < w.cellCount
  seedDisc : ∀ s, Seed w s → d s ≠ -1

/-- Invariant during the neighbor fold of one BFS iteration (`u` is the
popped cell, `du` its distance). -/
structure BfsFoldInv (w : World) (u : ℕ) (du : ℤ) (d : ℕ → ℤ)
    (q : List ℕ) : Prop where
  exact : ∀ x, d x ≠ -1 → 0 ≤ d x ∧ SeedDist w (d x).toNat x ∧
    (∀ j : ℕ, SeedDist w j x → d x ≤ (j : ℤ))
  sorted : List.Pairwise (fun a b => d a ≤ d b) q
  spread : ∀ a ∈ q, ∀ b ∈ q, d b ≤ d a + 1
  qvals : ∀ a ∈ q, du ≤ d a ∧ d a ≤ du + 1
  frontier : ∀ x, d x = -1 → ∀ j : ℕ, SeedDist w j x → du + 1 ≤ (j : ℤ)
  closureExcept : ∀ x, x ≠ u → d x ≠ -1 → x ∉ q →
    ∀ v ∈ w.adjacency x, d v ≠ -1
  uDisc : d u ≠ -1
  uDist : 0 ≤ du ∧ SeedDist w du.toNat u
  uNotInQ : u ∉ q
  uBounded : u < w.cellCount
  qDisc : ∀ x ∈ q, d x ≠ -1
  qNodup : q.Nodup
  qBounded : ∀ x ∈ q, x < w.cellCount
  seedDisc : ∀ s, Seed w s → d s ≠ -1

/-- Termination measure of the BFS loop. -/
def bfsMeasure (w : World) (d : ℕ → ℤ) (q : List ℕ) : ℕ :=
  q.length + ((Finset.range w.cellCount).filter (fun i => d i = -1)).card

theorem pairwise_le_congr (f g : ℕ → ℤ) :
    ∀ (l : List ℕ), (∀ x ∈ l, f x = g x) →
      List.Pairwise (fun a b => f a ≤ f b) l →
      List.Pairwise (fun a b => g a ≤ g b) l := by
  intro l
  induction l with
  | nil => intro _ _; exact List.Pairwise.nil
  | cons a t ih =>
    intro hfg hp
    rcases hp with _ | ⟨ha, ht⟩
    refine List.Pairwise.cons ?_ (ih (fun x hx => hfg x (List.mem_cons_of_mem a hx)) ht)
    intro b hb
    rw [← hfg a (List.mem_cons_self a t), ← hfg b (List.mem_cons_of_mem a hb)]
    exact ha b hb

/-- One step of the BFS neighbor loop preserves the fold invariant,
discovers the neighbor, and preserves the loop measure. -/
theorem bfsVisit_step (w : World) (hadj : w.AdjBounded) (u : ℕ) (du : ℤ)
    (v : ℕ) (hv : v ∈ w.adjacency u) (d : ℕ → ℤ) (q : List ℕ)
    (h : BfsFoldInv w u du d q) :
    BfsFoldInv w u du (bfsVisit du (d, q) v).1 (bfsVisit du (d, q) v).2 ∧
      (bfsVisit du (d, q) v).1 v ≠ -1 ∧
      bfsMeasure w (bfsVisit du (d, q) v).1 (bfsVisit du (d, q) v).2 =
        bfsMeasure w d q ∧
      (∀ x, d x ≠ -1 → (bfsVisit du (d, q) v).1 x ≠ -1) := by
  have hv_lt : v < w.cellCount := hadj u h.uBounded v hv
  by_cases hdv : d v = -1
  · -- v undiscovered: assign du + 1 and enqueue
    have hvu : v ≠ u := fun he => h.uDisc (he ▸ hdv)
    have hvq : v ∉ q := fun hm => h.qDisc v hm hdv
    have hstep : bfsVisit du (d, q) v =
        (Function.update d v (du + 1), q ++ [v]) := by
      rw [bfsVisit, if_pos hdv]
    rw [hstep]
    dsimp only
    have hdu0 : 0 ≤ du := h.uDist.1
    have hd_other : ∀ x, x ≠ v → Function.update d v (du + 1) x = d x :=
      fun x hx => Function.update_noteq hx _ _
    have hd_v : Function.update d v (du + 1) v = du + 1 :=
      Function.update_same v _ d
    have hnot_neg : ∀ x, d x ≠ -1 → Function.update d v (du + 1) x ≠ -1 := by
      intro x hx
      rcases eq_or_ne x v with rfl | hne
      · rw [hd_v]; omega
      · rw [hd_other x hne]; exact hx
    have hqvals : ∀ a ∈ q ++ [v],
        du ≤ Function.update d v (du + 1) a ∧
          Function.update d v (du + 1) a ≤ du + 1 := by
      intro a ha
      rcases List.mem_append.mp ha with ha | ha
      · have hav : a ≠ v := fun he => hvq (he ▸ ha)
        rw [hd_other a hav]
        exact h.qvals a ha
      · rw [List.mem_singleton.mp ha, hd_v]
        omega
    refine ⟨⟨?_, ?_, ?_, hqvals, ?_, ?_, ?_, h.uDist, ?_, h.uBounded,
        ?_, ?_, ?_, ?_⟩, ?_, ?_, hnot_neg⟩
    · -- exact
      intro x hx
      rcases eq_or_ne x v with rfl | hne
      · rw [hd_v]
        refine ⟨by omega, ?_, ?_⟩
        · have : (du + 1).toNat = du.toNat + 1 := by omega
          rw [this]
          exact seedDist_snoc w du.toNat u x h.uDist.2 hv
        · intro j hj
          exact h.frontier x hdv j hj
      · rw [hd_other x hne]
        exact h.exact x (by rwa [hd_other x hne] at hx)
    · -- sorted
      rw [List.pairwise_append]
      refine ⟨?_, List.pairwise_singleton _ _, ?_⟩
      · refine pairwise_le_congr d (Function.update d v (du + 1)) q
          (fun x hx => (hd_other x (fun he => hvq (he ▸ hx))).symm) h.sorted
      · intro a ha b hb
        rw [List.mem_singleton.mp hb, hd_v,
          hd_other a (fun he => hvq (he ▸ ha))]
        exact (h.qvals a ha).2
    · -- spread
      intro a ha b hb
      have h1 := hqvals a ha
      have h2 := hqvals b hb
      omega
    · -- frontier
      intro x hx j hj
      have hxv : x ≠ v := by
        intro he
        rw [he, hd_v] at hx
        omega
      exact h.frontier x (by rwa [hd_other x hxv] at hx) j hj
    · -- closureExcept
      intro x hxu hxd hxq y hy
      have hxv : x ≠ v := fun he =>
        hxq (List.mem_append.mpr (Or.inr (by simp [he])))
      refine hnot_neg y (h.closureExcept x hxu ?_ ?_ y hy)
      · rwa [hd_other x hxv] at hxd
      · exact fun hm => hxq (List.mem_append.mpr (Or.inl hm))
    · -- uDisc
      rw [hd_other u (Ne.symm hvu)]
      exact h.uDisc
    · -- uNotInQ
      intro hm
      rcases List.mem_append.mp hm with hm | hm
      · exact h.uNotInQ hm
      · exact hvu (List.mem_singleton.mp hm).symm
    · -- qDisc
      intro x hx
      rcases List.mem_append.mp hx with hx | hx
      · exact hnot_neg x (h.qDisc x hx)
      · rw [List.mem_singleton.mp hx, hd_v]
        omega
    · -- qNodup
      rw [List.nodup_append]
      exact ⟨h.qNodup, List.nodup_singleton v,
        fun a ha hb => hvq ((List.mem_singleton.mp hb) ▸ ha)⟩
    · -- qBounded
      intro x hx
      rcases List.mem_append.mp hx with hx | hx
      · exact h.qBounded x hx
      · rw [List.mem_singleton.mp hx]
        exact hv_lt
    · -- seedDisc
      intro s hs
      exact hnot_neg s (h.seedDisc s hs)
    · -- v discovered
      rw [hd_v]
      omega
    · -- measure
      unfold bfsMeasure
      rw [List.length_append, List.length_singleton]
      have hfilter :
          (Finset.range w.cellCount).filter
              (fun i => Function.update d v (du + 1) i = -1) =
            ((Finset.range w.cellCount).filter (fun i => d i = -1)).erase v := by
        ext i
        simp only [Finset.mem_filter, Finset.mem_erase, Finset.mem_range]
        constructor
        · intro ⟨hi1, hi2⟩
          have hiv : i ≠ v := by
            intro he
            rw [he, hd_v] at hi2
            omega
          rw [hd_other i hiv] at hi2
          exact ⟨hiv, hi1, hi2⟩
        · intro ⟨hiv, hi1, hi2⟩
          rw [hd_other i hiv]
          exact ⟨hi1, hi2⟩
      rw [hfilter]
      have hvmem : v ∈ (Finset.range w.cellCount).filter
          (fun i => d i = -1) := by
        simp [Finset.mem_filter, hv_lt, hdv]
      rw [Finset.card_erase_of_mem hvmem]
      have : 1 ≤ ((Finset.range w.cellCount).filter
          (fun i => d i = -1)).card :=
        Finset.card_pos.mpr ⟨v, hvmem⟩
      omega
  · -- v already discovered: no-op
    have hstep : bfsVisit du (d, q) v = (d, q) := by
      rw [bfsVisit, if_neg hdv]
    rw [hstep]
    exact ⟨h, hdv, rfl, fun x hx => hx⟩

theorem bfsVisit_fold (w : World) (hadj : w.AdjBounded) (u : ℕ) (du : ℤ) :
    ∀ (vs : List ℕ) (d : ℕ → ℤ) (q : List ℕ),
      (∀ v ∈ vs, v ∈ w.adjacency u) → BfsFoldInv w u du d q →
      BfsFoldInv w u du (vs.foldl (bfsVisit du) (d, q)).1
          (vs.foldl (bfsVisit du) (d, q)).2 ∧
        (∀ v ∈ vs, (vs.foldl (bfsVisit du) (d, q)).1 v ≠ -1) ∧
        bfsMeasure w (vs.foldl (bfsVisit du) (d, q)).1
            (vs.foldl (bfsVisit du) (d, q)).2 = bfsMeasure w d q ∧
        (∀ x, d x ≠ -1 → (vs.foldl (bfsVisit du) (d, q)).1 x ≠ -1) := by
  intro vs
  induction vs with
  | nil =>
    intro d q _ h
    exact ⟨h, by simp, rfl, fun x hx => hx⟩
  | cons v t ih =>
    intro d q hvs h
    simp only [List.foldl_cons]
    obtain ⟨h1, h2, h3, h4⟩ := bfsVisit_step w hadj u du v (hvs v (by simp)) d q h
    have hrw : ((bfsVisit du (d, q) v).1, (bfsVisit du (d, q) v).2) =
        bfsVisit du (d, q) v := rfl
    obtain ⟨g1, g2, g3, g4⟩ := ih (bfsVisit du (d, q) v).1
      (bfsVisit du (d, q) v).2
      (fun x hx => hvs x (List.mem_cons_of_mem v hx)) h1
    rw [hrw] at g1 g2 g3 g4
    refine ⟨g1, ?_, by rw [g3, h3], fun x hx => g4 x (h4 x hx)⟩
    intro x hx
    rcases List.mem_cons.mp hx with heq | hx2
    · subst heq; exact g4 x h2
    · exact g2 x hx2

/-- After the whole neighbor fold, the state satisfies the plain loop
invariant again (this re-establishes the BFS frontier property for the
new queue head). -/
theorem bfsFold_to_inv (w : World) (u : ℕ) (du : ℤ) (d : ℕ → ℤ)
    (q : List ℕ) (h : BfsFoldInv w u du d q)
    (hn : ∀ v ∈ w.adjacency u, d v ≠ -1) : BfsInv w d q := by
  refine ⟨h.exact, h.sorted, h.spread, ?_, ?_, h.qDisc, h.qNodup,
    h.qBounded, h.seedDisc⟩
  · -- frontier for the new head
    intro x hx j hj hh hhead
    cases q with
    | nil => simp at hhead
    | cons a t =>
      simp only [List.head?_cons, Option.some_inj] at hhead
      have hhd : hh = a := hhead.symm
      subst hhd
      have hhq : hh ∈ hh :: t := List.mem_cons_self hh t
      have hhead_le : ∀ y ∈ hh :: t, d hh ≤ d y := by
        intro y hy
        rcases List.mem_cons.mp hy with heq | hy2
        · subst heq; exact le_refl _
        · have hp := h.sorted
          rcases hp with _ | ⟨hrel, _⟩
          exact hrel y hy2
      have hvals := h.qvals hh hhq
      have hfront := h.frontier x hx j hj
      rcases eq_or_lt_of_le hvals.1 with heq | hlt
      · -- d hh = du
        rw [← heq]
        omega
      · -- d hh = du + 1 : show j ≥ du + 2
        have hhh : d hh = du + 1 := by omega
        rw [hhh]
        by_contra hcon
        have hj_eq : (j : ℤ) = du + 1 := by omega
        have hdu0 : 0 ≤ du := h.uDist.1
        have hj_pos : 1 ≤ j := by omega
        obtain ⟨m, rfl⟩ : ∃ m, j = m + 1 := ⟨j - 1, by omega⟩
        have hm : (m : ℤ) = du := by push_cast at hj_eq ⊢; omega
        obtain ⟨y, hy, hxy⟩ := seedDist_unsnoc w m x hj
        by_cases hyd : d y = -1
        · have := h.frontier y hyd m hy
          omega
        · have hy_min := (h.exact y hyd).2.2 m hy
          by_cases hyq : y ∈ hh :: t
          · have := hhead_le y hyq
            have := (h.qvals y hyq).1
            omega
          · rcases eq_or_ne y u with rfl | hne
            · exact (hn x hxy) hx
            · exact (h.closureExcept y hne hyd hyq x hxy) hx
  · -- procClosed
    intro z hz hzq v hv
    rcases eq_or_ne z u with rfl | hne
    · exact hn v hv
    · exact h.closureExcept z hne hz hzq v hv

/-- Popping the queue head turns the loop invariant into the fold
invariant, with the measure decreased by one. -/
theorem bfs_pop_foldInv (w : World) (d : ℕ → ℤ) (u : ℕ) (rest : List ℕ)
    (h : BfsInv w d (u :: rest)) :
    BfsFoldInv w u (d u) d rest ∧
      bfsMeasure w d rest + 1 = bfsMeasure w d (u :: rest) := by
  have humem : u ∈ u :: rest := List.mem_cons_self u rest
  have huDisc : d u ≠ -1 := h.qDisc u humem
  have hsorted := h.sorted
  rcases hsorted with _ | ⟨hrel, htail⟩
  constructor
  · refine ⟨h.exact, htail, ?_, ?_, ?_, ?_, huDisc,
      ⟨(h.exact u huDisc).1, (h.exact u huDisc).2.1⟩, ?_, h.qBounded u humem,
      ?_, ?_, ?_, h.seedDisc⟩
    · -- spread
      intro a ha b hb
      exact h.spread a (List.mem_cons_of_mem u ha) b (List.mem_cons_of_mem u hb)
    · -- qvals
      intro a ha
      exact ⟨hrel a ha,
        h.spread u humem a (List.mem_cons_of_mem u ha)⟩
    · -- frontier
      intro x hx j hj
      exact h.frontier x hx j hj u rfl
    · -- closureExcept
      intro x hxu hxd hxq v hv
      refine h.procClosed x hxd ?_ v hv
      intro hm
      rcases List.mem_cons.mp hm with heq | hm2
      · exact hxu heq
      · exact hxq hm2
    · -- uNotInQ
      rcases h.qNodup with _ | ⟨hnd, _⟩
      intro hm
      exact hnd u hm rfl
    · exact fun x hx => h.qDisc x (List.mem_cons_of_mem u hx)
    · have := h.qNodup
      rcases this with _ | ⟨_, hnd⟩
      exact hnd
    · exact fun x hx => h.qBounded x (List.mem_cons_of_mem u hx)
  · unfold bfsMeasure
    simp [List.length_cons]
    omega

/-- The BFS loop preserves the invariant and, with fuel at least the
measure, drains the queue completely. -/
theorem bfsLoop_inv (w : World) (hadj : w.AdjBounded) :
    ∀ (fuel : ℕ) (d : ℕ → ℤ) (q : List ℕ), BfsInv w d q →
      bfsMeasure w d q ≤ fuel →
      BfsInv w (bfsLoop w.adjacency fuel d q).1
          (bfsLoop w.adjacency fuel d q).2 ∧
        (bfsLoop w.adjacency fuel d q).2 = [] := by
  intro fuel
  induction fuel with
  | zero =>
    intro d q h hm
    have hq : q = [] := by
      unfold bfsMeasure at hm
      exact List.eq_nil_of_length_eq_zero (by omega)
    subst hq
    exact ⟨h, rfl⟩
  | succ fuel ih =>
    intro d q h hm
    rcases q with _ | ⟨u, rest⟩
    · exact ⟨h, rfl⟩
    · rw [bfsLoop]
      obtain ⟨hfold, hmeas⟩ := bfs_pop_foldInv w d u rest h
      obtain ⟨g1, g2, g3, _⟩ := bfsVisit_fold w hadj u (d u) (w.adjacency u)
        d rest (fun v hv => hv) hfold
      exact ih _ _ (bfsFold_to_inv w u (d u) _ _ g1 g2) (by omega)

theorem pairwise_of_forall_mem {R : ℕ → ℕ → Prop} :
    ∀ (l : List ℕ), (∀ a ∈ l, ∀ b ∈ l, R a b) → List.Pairwise R l := by
  intro l
  induction l with
  | nil => intro _; exact List.Pairwise.nil
  | cons a t ih =>
    intro h
    refine List.Pairwise.cons ?_ (ih fun x hx y hy =>
      h x (List.mem_cons_of_mem a hx) y (List.mem_cons_of_mem a hy))
    intro b hb
    exact h a (List.mem_cons_self a t) b (List.mem_cons_of_mem a hb)

theorem bfsInitAux_spec (w : World) : ∀ n : ℕ,
    (∀ i, ((List.range n).foldl (bfsSeed w) (fun _ => -1, [])).1 i =
      if i < n ∧ w.elevations i ≤ 0 then 0 else -1) ∧
    (∀ x, x ∈ ((List.range n).foldl (bfsSeed w) (fun _ => -1, [])).2 ↔
      x < n ∧ w.elevations x ≤ 0) ∧
    ((List.range n).foldl (bfsSeed w) (fun _ => -1, [])).2.Nodup := by
  intro n
  induction n with
  | zero =>
    refine ⟨fun i => by simp, fun x => by simp, by simp⟩
  | succ n ih =>
    obtain ⟨ih1, ih2, ih3⟩ := ih
    rw [List.range_succ, List.foldl_append, List.foldl_cons, List.foldl_nil]
    set st := (List.range n).foldl (bfsSeed w)
      ((fun _ => -1, []) : (ℕ → ℤ) × List ℕ) with hst
    unfold bfsSeed
    split
    · next hle =>
      refine ⟨?_, ?_, ?_⟩
      · intro i
        dsimp only
        rcases eq_or_ne i n with rfl | hne
        · rw [Function.update_same, if_pos ⟨Nat.lt_succ_self i, hle⟩]
        · rw [Function.update_noteq hne, ih1 i]
          rcases Nat.lt_trichotomy i n with h1 | h1 | h1
          · by_cases h2 : w.elevations i ≤ 0
            · rw [if_pos ⟨h1, h2⟩, if_pos ⟨by omega, h2⟩]
            · rw [if_neg (fun hx => h2 hx.2), if_neg (fun hx => h2 hx.2)]
          · exact absurd h1 hne
          · rw [if_neg (fun hx => by omega), if_neg (fun hx => by omega)]
      · intro x
        dsimp only
        rw [List.mem_append, List.mem_singleton, ih2 x]
        constructor
        · rintro (⟨h1, h2⟩ | rfl)
          · exact ⟨by omega, h2⟩
          · exact ⟨Nat.lt_succ_self x, hle⟩
        · rintro ⟨h1, h2⟩
          rcases Nat.lt_succ_iff_lt_or_eq.mp h1 with h3 | h3
          · exact Or.inl ⟨h3, h2⟩
          · exact Or.inr h3
      · dsimp only
        rw [List.nodup_append]
        exact ⟨ih3, List.nodup_singleton n,
          fun a ha hb => by
            rw [List.mem_singleton.mp hb] at ha
            exact absurd ((ih2 n).mp ha).1 (Nat.lt_irrefl n)⟩
    · next hle =>
      refine ⟨?_, ?_, ih3⟩
      · intro i
        rw [ih1 i]
        rcases eq_or_ne i n with rfl | hne
        · rw [if_neg (fun hx => Nat.lt_irrefl i hx.1),
            if_neg (fun hx => hle hx.2)]
        · by_cases h2 : i < n
          · by_cases h3 : w.elevations i ≤ 0
            · rw [if_pos ⟨h2, h3⟩, if_pos ⟨by omega, h3⟩]
            · rw [if_neg (fun hx => h3 hx.2), if_neg (fun hx => h3 hx.2)]
          · rw [if_neg (fun hx => h2 hx.1),
              if_neg (fun hx => h2 (by omega))]
      · intro x
        rw [ih2 x]
        constructor
        · rintro ⟨h1, h2⟩; exact ⟨by omega, h2⟩
        · rintro ⟨h1, h2⟩
          refine ⟨?_, h2⟩
          rcases Nat.lt_succ_iff_lt_or_eq.mp h1 with h3 | h3
          · exact h3
          · exact absurd (h3 ▸ h2) hle

/-- The seeded BFS state satisfies the loop invariant with measure at
most the cell count. -/
theorem bfsInit_inv (w : World) :
    BfsInv w (bfsInit w).1 (bfsInit w).2 ∧
      bfsMeasure w (bfsInit w).1 (bfsInit w).2 ≤ w.cellCount := by
  obtain ⟨h1, h2, h3⟩ := bfsInitAux_spec w w.cellCount
  rw [show (List.range w.cellCount).foldl (bfsSeed w) (fun _ => -1, []) =
    bfsInit w from rfl] at h1 h2 h3
  have hseed : ∀ x, (bfsInit w).1 x ≠ -1 ↔ Seed w x := by
    intro x
    rw [h1 x]
    unfold Seed
    split
    · next hcond => simp [hcond]
    · next hcond => simp [hcond]
  have hzero : ∀ x, Seed w x → (bfsInit w).1 x = 0 := by
    intro x hx
    rw [h1 x, if_pos ⟨hx.1, hx.2⟩]
  constructor
  · refine ⟨?_, ?_, ?_, ?_, ?_, ?_, h3, ?_, ?_⟩
    · -- exact
      intro x hx
      have hs := (hseed x).mp hx
      rw [hzero x hs]
      refine ⟨le_refl 0, ⟨x, hs, rfl⟩, fun j _ => by omega⟩
    · -- sorted
      refine pairwise_of_forall_mem _ ?_
      intro a ha b hb
      rw [hzero a (⟨((h2 a).mp ha).1, ((h2 a).mp ha).2⟩ : Seed w a),
        hzero b (⟨((h2 b).mp hb).1, ((h2 b).mp hb).2⟩ : Seed w b)]
    · -- spread
      intro a ha b hb
      rw [hzero a (⟨((h2 a).mp ha).1, ((h2 a).mp ha).2⟩ : Seed w a),
        hzero b (⟨((h2 b).mp hb).1, ((h2 b).mp hb).2⟩ : Seed w b)]
      omega
    · -- frontier
      intro x hx j hj u hu
      have humem : u ∈ (bfsInit w).2 := by
        cases hq : (bfsInit w).2 with
        | nil => rw [hq] at hu; simp at hu
        | cons a t =>
          rw [hq] at hu
          simp only [List.head?_cons, Option.some_inj] at hu
          rw [← hu]
          exact List.mem_cons_self a t
      rw [hzero u (⟨((h2 u).mp humem).1, ((h2 u).mp humem).2⟩ : Seed w u)]
      have hj1 : j ≠ 0 := by
        intro he
        subst he
        obtain ⟨s, hs, hw⟩ := hj
        cases hw
        have h0 := hzero _ hs
        omega
      omega
    · -- procClosed
      intro u hu huq v _
      exact absurd ((h2 u).mpr ((hseed u).mp hu)) huq
    · -- qDisc
      intro u hu
      rw [hseed u]
      exact ⟨((h2 u).mp hu).1, ((h2 u).mp hu).2⟩
    · -- qBounded
      intro u hu
      exact ((h2 u).mp hu).1
    · -- seedDisc
      intro s hs
      rw [hseed s]
      exact hs
  · unfold bfsMeasure
    have hlen : (bfsInit w).2.length =
        ((Finset.range w.cellCount).filter
          (fun i => (bfsInit w).1 i ≠ -1)).card := by
      rw [← List.toFinset_card_of_nodup h3]
      congr 1
      ext i
      rw [List.mem_toFinset, h2 i, Finset.mem_filter, Finset.mem_range, hseed i]
      unfold Seed
      tauto
    rw [hlen]
    have hsplit := Finset.filter_card_add_filter_neg_card_eq_card
      (s := Finset.range w.cellCount)
      (p := fun i => (bfsInit w).1 i ≠ -1)
    have hcongr : (Finset.range w.cellCount).filter
        (fun i => ¬ (bfsInit w).1 i ≠ -1) =
        (Finset.range w.cellCount).filter (fun i => (bfsInit w).1 i = -1) := by
      ext i
      simp [Finset.mem_filter]
    rw [hcongr, Finset.card_range] at hsplit
    omega

/-- The state the BFS ends in. -/
theorem bfs_final (w : World) (hadj : w.AdjBounded) :
    BfsInv w
        (bfsLoop w.adjacency w.cellCount (bfsInit w).1 (bfsInit w).2).1
        (bfsLoop w.adjacency w.cellCount (bfsInit w).1 (bfsInit w).2).2 ∧
      (bfsLoop w.adjacency w.cellCount (bfsInit w).1 (bfsInit w).2).2 = [] := by
  obtain ⟨h1, h2⟩ := bfsInit_inv w
  exact bfsLoop_inv w hadj w.cellCount (bfsInit w).1 (bfsInit w).2 h1 h2

/-- Every cell reachable from a seed is discovered by the BFS. -/
theorem bfs_complete (w : World) (hadj : w.AdjBounded) :
    ∀ (k : ℕ) (x : ℕ), SeedDist w k x →
      (bfsLoop w.adjacency w.cellCount (bfsInit w).1 (bfsInit w).2).1 x ≠ -1 := by
  obtain ⟨hInv, hdrained⟩ := bfs_final w hadj
  intro k
  induction k with
  | zero =>
    intro x hx
    obtain ⟨s, hs, hw⟩ := hx
    cases hw
    exact hInv.seedDisc x hs
  | succ k ih =>
    intro x hx
    obtain ⟨y, hy, hxy⟩ := seedDist_unsnoc w k x hx
    exact hInv.procClosed y (ih y hy) (by rw [hdrained]; exact List.not_mem_nil y)
      x hxy

/-- C5: `calculateDistanceToCoast` assigns `0` to every below-sea-level
cell, assigns to every cell reachable from a below-sea-level cell through
the cached adjacency the minimum hop count from such a cell, and leaves
every unreachable cell at the sentinel `-1`. -/
theorem C5_coast_distance (w : World) (hadj : w.AdjBounded) :
    (∀ x, Seed w x → w.calculateDistanceToCoast x = 0) ∧
    (∀ x, (∃ k, SeedDist w k x) →
      0 ≤ w.calculateDistanceToCoast x ∧
      SeedDist w (w.calculateDistanceToCoast x).toNat x ∧
      (∀ j : ℕ, (j : ℤ) < w.calculateDistanceToCoast x → ¬ SeedDist w j x)) ∧
    (∀ x, ¬ (∃ k, SeedDist w k x) → w.calculateDistanceToCoast x = -1) := by
  obtain ⟨hInv, _⟩ := bfs_final w hadj
  unfold World.calculateDistanceToCoast
  refine ⟨?_, ?_, ?_⟩
  · intro x hx
    have hd : w.calculateDistanceToCoast x ≠ -1 :=
      bfs_complete w hadj 0 x ⟨x, hx, rfl⟩
    have he := hInv.exact x hd
    have hmin := he.2.2 0 ⟨x, hx, rfl⟩
    omega
  · intro x ⟨k, hk⟩
    have hd : w.calculateDistanceToCoast x ≠ -1 := bfs_complete w hadj k x hk
    have he := hInv.exact x hd
    refine ⟨he.1, he.2.1, ?_⟩
    intro j hj hsd
    have := he.2.2 j hsd
    omega
  · intro x hx
    by_contra hd
    exact hx ⟨(w.calculateDistanceToCoast x).toNat, (hInv.exact x hd).2.1⟩

unseal Rat.add Rat.sub Rat.mul Rat.inv Rat.ofScientific in
/-- Witness for C5 at `exampleWorld3` (coast distances `0, 1, 2`). -/
theorem C5_coast_distance_witness :
    exampleWorld3.AdjBounded ∧
      ((∀ x, Seed exampleWorld3 x →
          exampleWorld3.calculateDistanceToCoast x = 0) ∧
        (∀ x, (∃ k, SeedDist exampleWorld3 k x) →
          0 ≤ exampleWorld3.calculateDistanceToCoast x ∧
          SeedDist exampleWorld3
            (exampleWorld3.calculateDistanceToCoast x).toNat x ∧
          (∀ j : ℕ, (j : ℤ) < exampleWorld3.calculateDistanceToCoast x →
            ¬ SeedDist exampleWorld3 j x)) ∧
        (∀ x, ¬ (∃ k, SeedDist exampleWorld3 k x) →
          exampleWorld3.calculateDistanceToCoast x = -1)) :=
  ⟨by unfold World.AdjBounded; decide,
    C5_coast_distance exampleWorld3 (by unfold World.AdjBounded; decide)⟩

/-! ## `World.generateRivers`

Pass A is `calculateDistanceToCoast` above.  Pass B (`downhill`) selects
each cell's drainage target, Pass C (`flux`) accumulates flow volumes in
sorted order, Pass D (`riverSegments`) extracts the river segments.  The
source computes all passes inside `generateRivers` on the same coast
distance array; the embedding names each intermediate. -/

/-- Body of the neighbor scan of Pass B: the fold state is
`(bestNeighbor, lowestH, bestDist)`; a strictly lower neighbor takes all
three, an equal-elevation neighbor with smaller coast distance takes the
target and the distance. -/
def downStep (w : World) (dist : ℕ → ℤ) (st : Option ℕ × ℚ × ℤ)
    (nId : ℕ) : Option ℕ × ℚ × ℤ :=
  if w.elevations nId < st.2.1 then
    (some nId, w.elevations nId, dist nId)
  else if w.elevations nId = st.2.1 ∧ dist nId < st.2.2 then
    (some nId, st.2.1, dist nId)
  else st

/-- Pass B for one cell, over an arbitrary coast-distance array: cells at
elevation `≤ 0.05` are skipped (`continue`), the fold starts at
`(-1, elevations[i], distToCoast[i])`; `none` models `-1`. -/
def downhillAt (w : World) (dist : ℕ → ℤ) (i : ℕ) : Option ℕ :=
  if w.elevations i ≤ 0.05 then none
  else
    ((w.adjacency i).foldl (downStep w dist)
      (none, w.elevations i, dist i)).1

/-- Pass B over the computed coast distances. -/
def World.downhill (w : World) : ℕ → Option ℕ :=
  downhillAt w w.calculateDistanceToCoast

/-- The sort relation of Pass C (`a` may come before `b`): elevation
descending, coast distance descending as tiebreak — the JS comparator
`(a, b) => elev[b] - elev[a] || dist[b] - dist[a]`. -/
def fluxOrder (w : World) (dist : ℕ → ℤ) (a b : ℕ) : Prop :=
  w.elevations b < w.elevations a ∨
    (w.elevations b = w.elevations a ∧ dist b ≤ dist a)

instance fluxOrderDecidable (w : World) (dist : ℕ → ℤ) :
    DecidableRel (fluxOrder w dist) := fun a b => by
  unfold fluxOrder
  infer_instance

/-- Pass C's processing order: all cell indices sorted by the comparator
(a stable sort models `TypedArray.prototype.sort`). -/
def World.sortedIndices (w : World) : List ℕ :=
  List.insertionSort (fluxOrder w w.calculateDistanceToCoast)
    (List.range w.cellCount)

/-- Body of Pass C for one cell: with a downhill target (`target >= 0`)
and positive elevation, add the cell's current flow volume to its
target's. -/
def fluxStep (w : World) (dh : ℕ → Option ℕ) (fl : ℕ → ℚ) (i : ℕ) :
    ℕ → ℚ :=
  match dh i with
  | some t => if 0 < w.elevations i then
      Function.update fl t (fl t + fl i) else fl
  | none => fl

/-- Pass C: starting from `1.0` everywhere, process cells in sorted
order. -/
def fluxAt (w : World) (dh : ℕ → Option ℕ) (order : List ℕ) : ℕ → ℚ :=
  order.foldl (fluxStep w dh) (fun _ => 1)

def World.flux (w : World) : ℕ → ℚ :=
  fluxAt w w.downhill w.sortedIndices

/-- Pass D: one `(x1, y1, x2, y2, flowVolume)` record per cell whose flux
exceeds the threshold `50`, whose elevation is positive and which has a
downhill target. -/
def World.riverSegments (w : World) : List (ℚ × ℚ × ℚ × ℚ × ℚ) :=
  (List.range w.cellCount).filterMap
    (fun i =>
      if 50 < w.flux i ∧ 0 < w.elevations i then
        (w.downhill i).map
          (fun t => ((w.points i).1, (w.points i).2,
            (w.points t).1, (w.points t).2, w.flux i))
      else none)

/-- Strict lexicographic order on `(elevation, coastDistance)` keys: the
exact condition under which Pass B assigns a drainage target. -/
def lexLt (a b : ℚ × ℤ) : Prop :=
  a.1 < b.1 ∨ (a.1 = b.1 ∧ a.2 < b.2)

def lexLe (a b : ℚ × ℤ) : Prop :=
  a.1 < b.1 ∨ (a.1 = b.1 ∧ a.2 ≤ b.2)

/-- The `(elevation, coastDistance)` key of a cell. -/
def downKey (w : World) (dist : ℕ → ℤ) (n : ℕ) : ℚ × ℤ :=
  (w.elevations n, dist n)

theorem lexLe_refl (a : ℚ × ℤ) : lexLe a a := Or.inr ⟨rfl, le_refl _⟩

theorem lexLe_trans (a b c : ℚ × ℤ) (h1 : lexLe a b) (h2 : lexLe b c) :
    lexLe a c := by
  unfold lexLe at h1 h2 ⊢
  rcases h1 with h1 | ⟨h1e, h1d⟩ <;> rcases h2 with h2 | ⟨h2e, h2d⟩
  · exact Or.inl (lt_trans h1 h2)
  · exact Or.inl (h2e ▸ h1)
  · exact Or.inl (h1e ▸ h2)
  · exact Or.inr ⟨h1e.trans h2e, le_trans h1d h2d⟩

theorem lexLt_trans (a b c : ℚ × ℤ) (h1 : lexLt a b) (h2 : lexLt b c) :
    lexLt a c := by
  unfold lexLt at h1 h2 ⊢
  rcases h1 with h1 | ⟨h1e, h1d⟩ <;> rcases h2 with h2 | ⟨h2e, h2d⟩
  · exact Or.inl (lt_trans h1 h2)
  · exact Or.inl (h2e ▸ h1)
  · exact Or.inl (h1e ▸ h2)
  · exact Or.inr ⟨h1e.trans h2e, lt_trans h1d h2d⟩

theorem lexLt_irrefl (a : ℚ × ℤ) : ¬ lexLt a a := by
  unfold lexLt
  rintro (h | ⟨_, h⟩)
  · exact lt_irrefl _ h
  · exact lt_irrefl _ h

theorem lexLt_le_trans (a b c : ℚ × ℤ) (h1 : lexLe a b) (h2 : lexLt b c) :
    lexLt a c := by
  unfold lexLe at h1
  unfold lexLt at h2 ⊢
  rcases h1 with h1 | ⟨h1e, h1d⟩ <;> rcases h2 with h2 | ⟨h2e, h2d⟩
  · exact Or.inl (lt_trans h1 h2)
  · exact Or.inl (h2e ▸ h1)
  · exact Or.inl (h1e ▸ h2)
  · exact Or.inr ⟨h1e.trans h2e, lt_of_le_of_lt h1d h2d⟩

/-- Invariant of the Pass B fold state relative to cell `i`. -/
def DownInv (w : World) (dist : ℕ → ℤ) (i : ℕ)
    (st : Option ℕ × ℚ × ℤ) : Prop :=
  (st.1 = none → st.2.1 = w.elevations i ∧ st.2.2 = dist i) ∧
  (∀ n, st.1 = some n → n ∈ w.adjacency i ∧ st.2.1 = w.elevations n ∧
    st.2.2 = dist n ∧ lexLt (downKey w dist n) (downKey w dist i))

theorem downStep_spec (w : World) (dist : ℕ → ℤ) (i : ℕ)
    (st : Option ℕ × ℚ × ℤ) (n : ℕ) (hn : n ∈ w.adjacency i)
    (h : DownInv w dist i st) :
    DownInv w dist i (downStep w dist st n) ∧
      lexLe ((downStep w dist st n).2.1, (downStep w dist st n).2.2)
        (st.2.1, st.2.2) ∧
      lexLe ((downStep w dist st n).2.1, (downStep w dist st n).2.2)
        (downKey w dist n) := by
  obtain ⟨hnone, hsome⟩ := h
  unfold downStep
  split
  · next hb1 =>
    dsimp only
    refine ⟨⟨fun he => Option.noConfusion he, ?_⟩, ?_, lexLe_refl _⟩
    · intro m hm
      rw [Option.some_inj] at hm
      subst hm
      refine ⟨hn, rfl, rfl, ?_⟩
      rcases hst : st.1 with _ | m0
      · obtain ⟨he, _⟩ := hnone hst
        rw [he] at hb1
        exact Or.inl hb1
      · obtain ⟨_, he, _, hlex⟩ := hsome m0 hst
        rw [he] at hb1
        unfold lexLt downKey at hlex ⊢
        dsimp only at hlex ⊢
        rcases hlex with hlex | ⟨hlex, _⟩
        · exact Or.inl (lt_trans hb1 hlex)
        · exact Or.inl (hlex ▸ hb1)
    · unfold lexLe
      dsimp only
      exact Or.inl hb1
  · next hb1 =>
    split
    · next hb2 =>
      obtain ⟨hb2e, hb2d⟩ := hb2
      dsimp only
      refine ⟨⟨fun he => Option.noConfusion he, ?_⟩, ?_, ?_⟩
      · intro m hm
        rw [Option.some_inj] at hm
        subst hm
        refine ⟨hn, hb2e.symm, rfl, ?_⟩
        rcases hst : st.1 with _ | m0
        · obtain ⟨he, hd⟩ := hnone hst
          rw [he] at hb2e
          rw [hd] at hb2d
          exact Or.inr ⟨hb2e, hb2d⟩
        · obtain ⟨_, he, hd, hlex⟩ := hsome m0 hst
          rw [he] at hb2e
          rw [hd] at hb2d
          unfold lexLt downKey at hlex ⊢
          dsimp only at hlex ⊢
          rcases hlex with hlex | ⟨hlex, hlexd⟩
          · exact Or.inl (hb2e ▸ hlex)
          · exact Or.inr ⟨hb2e.trans hlex, lt_trans hb2d hlexd⟩
      · unfold lexLe
        dsimp only
        exact Or.inr ⟨rfl, le_of_lt hb2d⟩
      · unfold lexLe downKey
        dsimp only
        exact Or.inr ⟨hb2e.symm, le_refl _⟩
    · next hb2 =>
      refine ⟨⟨hnone, hsome⟩, lexLe_refl _, ?_⟩
      unfold lexLe downKey
      dsimp only
      rcases lt_or_eq_of_le (le_of_not_lt hb1) with hlt | heq
      · exact Or.inl hlt
      · refine Or.inr ⟨heq, ?_⟩
        by_contra hd
        exact hb2 ⟨heq.symm, by omega⟩

theorem downFold_spec (w : World) (dist : ℕ → ℤ) (i : ℕ) :
    ∀ (l : List ℕ) (st : Option ℕ × ℚ × ℤ),
      (∀ n ∈ l, n ∈ w.adjacency i) → DownInv w dist i st →
      DownInv w dist i (l.foldl (downStep w dist) st) ∧
        lexLe ((l.foldl (downStep w dist) st).2.1,
            (l.foldl (downStep w dist) st).2.2) (st.2.1, st.2.2) ∧
        (∀ n ∈ l, lexLe ((l.foldl (downStep w dist) st).2.1,
            (l.foldl (downStep w dist) st).2.2) (downKey w dist n)) := by
  intro l
  induction l with
  | nil =>
    intro st _ h
    exact ⟨h, lexLe_refl _, by simp⟩
  | cons n t ih =>
    intro st hl h
    simp only [List.foldl_cons]
    obtain ⟨s1, s2, s3⟩ := downStep_spec w dist i st n (hl n (by simp)) h
    obtain ⟨g1, g2, g3⟩ := ih (downStep w dist st n)
      (fun x hx => hl x (List.mem_cons_of_mem n hx)) s1
    refine ⟨g1, lexLe_trans _ _ _ g2 s2, ?_⟩
    intro x hx
    rcases List.mem_cons.mp hx with heq | hx2
    · subst heq
      exact lexLe_trans _ _ _ g2 s3
    · exact g3 x hx2

/-- Characterization of an assigned downhill target: it is a neighbor
whose `(elevation, coastDistance)` key is lexicographically strictly
below the cell's own and lexicographically minimal among all neighbors;
the cell is above the `0.05` threshold. -/
theorem downhillAt_some (w : World) (dist : ℕ → ℤ) (i t : ℕ)
    (h : downhillAt w dist i = some t) :
    t ∈ w.adjacency i ∧ 0.05 < w.elevations i ∧
      lexLt (downKey w dist t) (downKey w dist i) ∧
      (∀ n ∈ w.adjacency i, lexLe (downKey w dist t) (downKey w dist n)) := by
  unfold downhillAt at h
  split at h
  · cases h
  · next hel =>
    obtain ⟨⟨hnone, hsome⟩, hle, hmin⟩ := downFold_spec w dist i
      (w.adjacency i) (none, w.elevations i, dist i) (fun n hn => hn)
      ⟨fun _ => ⟨rfl, rfl⟩, fun n hn => by cases hn⟩
    obtain ⟨hmem, hkey1, hkey2, hlex⟩ := hsome t h
    refine ⟨hmem, lt_of_not_le hel, hlex, ?_⟩
    intro n hn
    have := hmin n hn
    rwa [hkey1, hkey2] at this

/-- A cell none of whose neighbors has a lexicographically smaller
`(elevation, coastDistance)` key is assigned no target. -/
theorem downhillAt_none (w : World) (dist : ℕ → ℤ) (i : ℕ)
    (h : ∀ n ∈ w.adjacency i,
      ¬ lexLt (downKey w dist n) (downKey w dist i)) :
    downhillAt w dist i = none := by
  unfold downhillAt
  split
  · rfl
  · next hel =>
    have hfix : ∀ (l : List ℕ), (∀ n ∈ l, n ∈ w.adjacency i) →
        l.foldl (downStep w dist) (none, w.elevations i, dist i) =
          (none, w.elevations i, dist i) := by
      intro l
      induction l with
      | nil => intro _; rfl
      | cons n t ih =>
        intro hl
        simp only [List.foldl_cons]
        have hstep : downStep w dist (none, w.elevations i, dist i) n =
            (none, w.elevations i, dist i) := by
          unfold downStep
          dsimp only
          rw [if_neg, if_neg]
          · rintro ⟨h1, h2⟩
            exact h n (hl n (by simp)) (Or.inr ⟨h1, h2⟩)
          · intro h1
            exact h n (hl n (by simp)) (Or.inl h1)
        rw [hstep]
        exact ih (fun x hx => hl x (List.mem_cons_of_mem n hx))
    rw [hfix (w.adjacency i) (fun n hn => hn)]

/-- Three-cell world with an equal-elevation plateau: seed `0` at `-1`,
cells `1` and `2` both at elevation `1` (a `fillSinks` fixed point, since
the enforcer only raises strictly lower neighbors). -/
def exampleWorldTie : World where
  cellCount := 3
  adjacency := fun i =>
    if i = 0 then [1] else if i = 1 then [0, 2] else if i = 2 then [1] else []
  elevations := fun i => if i = 0 then -1 else 1
  moisture := fun _ => 0
  points := fun i => ((i : ℚ), 0)

unseal Rat.add Rat.sub Rat.mul Rat.inv Rat.ofScientific in
/-- C2 counterexample: in `exampleWorldTie`, cell `2` has no strictly
lower neighbor (its only neighbor `1` has equal elevation), yet Pass B
assigns it the downhill target `1` — via the coast-distance tiebreak on
an equal-elevation neighbor. -/
theorem C2_downhill_counterexample :
    exampleWorldTie.downhill 2 = some 1 ∧
      exampleWorldTie.elevations 1 = exampleWorldTie.elevations 2 ∧
      ∀ n ∈ exampleWorldTie.adjacency 2,
        ¬ exampleWorldTie.elevations n < exampleWorldTie.elevations 2 := by
  refine ⟨by decide, by decide, by decide⟩

/-- C2 (amended): an assigned downhill target is a neighbor that is
strictly lower, or of equal elevation and strictly smaller coast
distance, than the cell; among all neighbors its `(elevation,
coastDistance)` key is minimal (ties in elevation broken by smaller
coast distance); and a cell with no neighbor that is strictly lower or
equal-elevation-with-smaller-coast-distance keeps no target (`-1`). -/
theorem C2_downhill_amended (w : World) (i : ℕ) :
    (∀ t, w.downhill i = some t →
      t ∈ w.adjacency i ∧
      (w.elevations t < w.elevations i ∨
        (w.elevations t = w.elevations i ∧
          w.calculateDistanceToCoast t < w.calculateDistanceToCoast i)) ∧
      (∀ n ∈ w.adjacency i,
        w.elevations t < w.elevations n ∨
          (w.elevations t = w.elevations n ∧
            w.calculateDistanceToCoast t ≤ w.calculateDistanceToCoast n))) ∧
    ((∀ n ∈ w.adjacency i,
        ¬ (w.elevations n < w.elevations i ∨
          (w.elevations n = w.elevations i ∧
            w.calculateDistanceToCoast n < w.calculateDistanceToCoast i))) →
      w.downhill i = none) := by
  constructor
  · intro t ht
    obtain ⟨hmem, _, hlex, hmin⟩ :=
      downhillAt_some w w.calculateDistanceToCoast i t ht
    exact ⟨hmem, hlex, hmin⟩
  · intro hn
    exact downhillAt_none w w.calculateDistanceToCoast i hn

unseal Rat.add Rat.sub Rat.mul Rat.inv Rat.ofScientific in
/-- Witness for the amended C2 at `exampleWorldTie`, cell `2`, target
`1`. -/
theorem C2_downhill_amended_witness :
    exampleWorldTie.downhill 2 = some 1 ∧
      1 ∈ exampleWorldTie.adjacency 2 ∧
      (exampleWorldTie.elevations 1 < exampleWorldTie.elevations 2 ∨
        (exampleWorldTie.elevations 1 = exampleWorldTie.elevations 2 ∧
          exampleWorldTie.calculateDistanceToCoast 1 <
            exampleWorldTie.calculateDistanceToCoast 2)) := by
  have h : exampleWorldTie.downhill 2 = some 1 := by decide
  obtain ⟨h1, h2, _⟩ := (C2_downhill_amended exampleWorldTie 2).1 1 h
  exact ⟨h, h1, h2⟩

/-! ### C4: the downhill relation is acyclic and chains are short -/

/-- Following downhill targets for `k` steps (`none` once a cell with no
target has been passed). -/
def downhillChain (w : World) : ℕ → ℕ → Option ℕ
  | 0, c => some c
  | k + 1, c => (downhillChain w k c).bind (fun x => w.downhill x)

theorem downhillChain_add (w : World) : ∀ (m j : ℕ) (c : ℕ),
    downhillChain w (j + m) c =
      (downhillChain w j c).bind (downhillChain w m) := by
  intro m
  induction m with
  | zero =>
    intro j c
    show downhillChain w j c = _
    cases downhillChain w j c <;> rfl
  | succ m ih =>
    intro j c
    show downhillChain w (j + m + 1) c = _
    rw [downhillChain, ih j c]
    cases downhillChain w j c with
    | none => rfl
    | some y => rfl

theorem downhillChain_lexLt (w : World) : ∀ (k c x : ℕ),
    downhillChain w (k + 1) c = some x →
    lexLt (downKey w w.calculateDistanceToCoast x)
      (downKey w w.calculateDistanceToCoast c) := by
  intro k
  induction k with
  | zero =>
    intro c x h
    have h2 : w.downhill c = some x := h
    exact (downhillAt_some w w.calculateDistanceToCoast c x h2).2.2.1
  | succ k ih =>
    intro c x h
    rw [downhillChain] at h
    rcases hy : downhillChain w (k + 1) c with _ | y
    · rw [hy] at h; cases h
    · rw [hy] at h
      simp only [Option.some_bind] at h
      exact lexLt_trans _ _ _
        ((downhillAt_some w w.calculateDistanceToCoast y x h).2.2.1)
        (ih c y hy)

theorem downhillChain_bounded (w : World) (hadj : w.AdjBounded) :
    ∀ (k c x : ℕ), c < w.cellCount → downhillChain w k c = some x →
      x < w.cellCount := by
  intro k
  induction k with
  | zero =>
    intro c x hc h
    cases h
    exact hc
  | succ k ih =>
    intro c x hc h
    rw [downhillChain] at h
    rcases hy : downhillChain w k c with _ | y
    · rw [hy] at h; cases h
    · rw [hy] at h
      simp only [Option.some_bind] at h
      have hylt := ih c y hc hy
      exact hadj y hylt x (downhillAt_some w w.calculateDistanceToCoast y x h).1

/-- C4: the downhill relation (assigned only above elevation `0.05 > 0`)
is acyclic — no cell is reachable from itself by a positive number of
downhill steps — and from any cell a cell without a target is reached in
at most `cellCount` steps. -/
theorem C4_downhill_acyclic (w : World) (hadj : w.AdjBounded) :
    (∀ c k, 0 < k → downhillChain w k c ≠ some c) ∧
    (∀ c, c < w.cellCount → ∃ k, k ≤ w.cellCount ∧ ∃ x,
      downhillChain w k c = some x ∧ w.downhill x = none) := by
  constructor
  · intro c k hk h
    obtain ⟨m, rfl⟩ : ∃ m, k = m + 1 := ⟨k - 1, by omega⟩
    exact lexLt_irrefl _ (downhillChain_lexLt w m c c h)
  · intro c hc
    by_contra hcon
    push_neg at hcon
    -- every chain value up to cellCount exists and still has a target
    have hall : ∀ k, k ≤ w.cellCount → ∃ x, downhillChain w k c = some x := by
      intro k
      induction k with
      | zero => intro _; exact ⟨c, rfl⟩
      | succ k ih =>
        intro hk
        obtain ⟨y, hy⟩ := ih (by omega)
        have hcont := hcon k (by omega) y hy
        rcases ht : w.downhill y with _ | t
        · exact absurd ht hcont
        · refine ⟨t, ?_⟩
          rw [downhillChain, hy]
          simp only [Option.some_bind]
          exact ht
    set f : ℕ → ℕ := fun k => (downhillChain w k c).getD 0 with hf
    have hfval : ∀ k, k ≤ w.cellCount → downhillChain w k c = some (f k) := by
      intro k hk
      obtain ⟨x, hx⟩ := hall k hk
      show downhillChain w k c = some ((downhillChain w k c).getD 0)
      rw [hx]
      rfl
    have hinj : ∀ j ∈ List.range (w.cellCount + 1),
        ∀ k ∈ List.range (w.cellCount + 1), f j = f k → j = k := by
      have hstrict : ∀ j k, j < k → k ≤ w.cellCount → f j ≠ f k := by
        intro j k hjk hk he
        have h1 := hfval j (by omega)
        have h2 := hfval k hk
        have hsplit : downhillChain w (j + (k - j)) c =
            (downhillChain w j c).bind (downhillChain w (k - j)) :=
          downhillChain_add w (k - j) j c
        rw [show j + (k - j) = k by omega, h1] at hsplit
        simp only [Option.some_bind] at hsplit
        have hchain : downhillChain w (k - j) (f j) = some (f k) := by
          rw [← hsplit, h2]
        obtain ⟨m, hm⟩ : ∃ m, k - j = m + 1 := ⟨k - j - 1, by omega⟩
        rw [hm] at hchain
        have := downhillChain_lexLt w m (f j) (f k) hchain
        rw [he] at this
        exact lexLt_irrefl _ this
      intro j hj k hk he
      rw [List.mem_range] at hj hk
      rcases Nat.lt_trichotomy j k with h | h | h
      · exact absurd he (hstrict j k h (by omega))
      · exact h
      · exact absurd he.symm (hstrict k j h (by omega))
    have hnodup : ((List.range (w.cellCount + 1)).map f).Nodup :=
      (List.nodup_range (w.cellCount + 1)).map_on hinj
    have hbound : ∀ x ∈ (List.range (w.cellCount + 1)).map f,
        x ∈ Finset.range w.cellCount := by
      intro x hx
      obtain ⟨k, hk, hfk⟩ := List.mem_map.mp hx
      rw [List.mem_range] at hk
      rw [Finset.mem_range, ← hfk]
      exact downhillChain_bounded w hadj k c (f k) hc (hfval k (by omega))
    have hcard : ((List.range (w.cellCount + 1)).map f).toFinset.card =
        w.cellCount + 1 := by
      rw [List.toFinset_card_of_nodup hnodup]
      simp
    have hsub : ((List.range (w.cellCount + 1)).map f).toFinset ⊆
        Finset.range w.cellCount := by
      intro x hx
      exact hbound x (List.mem_toFinset.mp hx)
    have := Finset.card_le_card hsub
    rw [hcard, Finset.card_range] at this
    omega

unseal Rat.add Rat.sub Rat.mul Rat.inv Rat.ofScientific in
/-- Witness for C4 at `exampleWorld3`, starting cell `1`. -/
theorem C4_downhill_acyclic_witness :
    exampleWorld3.AdjBounded ∧
      (downhillChain exampleWorld3 1 1 ≠ some 1) ∧
      (∃ k, k ≤ exampleWorld3.cellCount ∧ ∃ x,
        downhillChain exampleWorld3 k 1 = some x ∧
          exampleWorld3.downhill x = none) := by
  have hadj : exampleWorld3.AdjBounded := by unfold World.AdjBounded; decide
  exact ⟨hadj, (C4_downhill_acyclic exampleWorld3 hadj).1 1 1 (by omega),
    (C4_downhill_acyclic exampleWorld3 hadj).2 1 (by decide)⟩

/-! ### C3: the sort order processes sources before targets, and flux
accumulation realises the contributor-sum equation -/

theorem fluxOrder_total (w : World) (dist : ℕ → ℤ) (a b : ℕ) :
    fluxOrder w dist a b ∨ fluxOrder w dist b a := by
  unfold fluxOrder
  rcases lt_trichotomy (w.elevations a) (w.elevations b) with h | h | h
  · exact Or.inr (Or.inl h)
  · rcases le_total (dist b) (dist a) with h2 | h2
    · exact Or.inl (Or.inr ⟨h.symm, h2⟩)
    · exact Or.inr (Or.inr ⟨h, h2⟩)
  · exact Or.inl (Or.inl h)

theorem fluxOrder_trans (w : World) (dist : ℕ → ℤ) (a b c : ℕ)
    (h1 : fluxOrder w dist a b) (h2 : fluxOrder w dist b c) :
    fluxOrder w dist a c := by
  unfold fluxOrder at h1 h2 ⊢
  rcases h1 with h1 | ⟨h1e, h1d⟩ <;> rcases h2 with h2 | ⟨h2e, h2d⟩
  · exact Or.inl (lt_trans h2 h1)
  · exact Or.inl (h2e ▸ h1)
  · exact Or.inl (h1e ▸ h2)
  · exact Or.inr ⟨h2e.trans h1e, le_trans h2d h1d⟩

theorem sortedIndices_sorted (w : World) :
    List.Sorted (fluxOrder w w.calculateDistanceToCoast) w.sortedIndices := by
  haveI : IsTotal ℕ (fluxOrder w w.calculateDistanceToCoast) :=
    ⟨fluxOrder_total w _⟩
  haveI : IsTrans ℕ (fluxOrder w w.calculateDistanceToCoast) :=
    ⟨fluxOrder_trans w _⟩
  exact List.sorted_insertionSort _ _

theorem sortedIndices_perm (w : World) :
    w.sortedIndices.Perm (List.range w.cellCount) :=
  List.perm_insertionSort _ _

theorem sortedIndices_nodup (w : World) : w.sortedIndices.Nodup :=
  (sortedIndices_perm w).nodup_iff.mpr (List.nodup_range w.cellCount)

theorem mem_sortedIndices (w : World) (x : ℕ) :
    x ∈ w.sortedIndices ↔ x < w.cellCount := by
  rw [(sortedIndices_perm w).mem_iff, List.mem_range]

/-- A cell whose key is lexicographically strictly below another's can
never be placed after it by the sort comparator. -/
theorem not_fluxOrder_of_lexLt (w : World) (dist : ℕ → ℤ) (t i : ℕ)
    (h : lexLt (downKey w dist t) (downKey w dist i)) :
    ¬ fluxOrder w dist t i := by
  unfold lexLt downKey at h
  unfold fluxOrder
  dsimp only at h
  rintro (h2 | ⟨h2e, h2d⟩)
  · rcases h with h | ⟨he, _⟩
    · exact absurd h2 (not_lt_of_gt h)
    · exact absurd h2 (he ▸ lt_irrefl _)
  · rcases h with h | ⟨_, hd⟩
    · exact absurd h2e (ne_of_gt (h2e ▸ h))
    · omega

/-- Every decomposition of the sorted order around a cell with a
downhill target places the target strictly later. -/
theorem sorted_targets_later (w : World) (hadj : w.AdjBounded) :
    ∀ (S1 : List ℕ) (a : ℕ) (S2 : List ℕ),
      w.sortedIndices = S1 ++ a :: S2 → ∀ t, w.downhill a = some t →
      0 < w.elevations a → t ∈ S2 := by
  intro S1 a S2 hsplit t ht _
  have hlex := (downhillAt_some w w.calculateDistanceToCoast a t ht).2.2.1
  have ha_mem : a ∈ w.sortedIndices := by rw [hsplit]; simp
  have ha_lt : a < w.cellCount := (mem_sortedIndices w a).mp ha_mem
  have ht_lt : t < w.cellCount :=
    hadj a ha_lt t (downhillAt_some w w.calculateDistanceToCoast a t ht).1
  have ht_mem : t ∈ w.sortedIndices := (mem_sortedIndices w t).mpr ht_lt
  rw [hsplit] at ht_mem
  rcases List.mem_append.mp ht_mem with h1 | h2
  · have hsorted := sortedIndices_sorted w
    rw [hsplit, List.Sorted, List.pairwise_append] at hsorted
    exact absurd (hsorted.2.2 t h1 a (by simp))
      (not_fluxOrder_of_lexLt w w.calculateDistanceToCoast t a hlex)
  · rcases List.mem_cons.mp h2 with heq | h3
    · rw [heq] at hlex
      exact absurd hlex (lexLt_irrefl _)
    · exact h3

/-- The flux fold, processed left to right, maintains the contributor-sum
equation (`dh` is an arbitrary target map; the hypotheses say that the
unprocessed suffix never drains into an already-processed cell). -/
theorem fluxFold_spec (w : World) (dh : ℕ → Option ℕ) :
    ∀ (rem done : List ℕ) (fl : ℕ → ℚ),
      (done ++ rem).Nodup →
      (∀ (S1 : List ℕ) (a : ℕ) (S2 : List ℕ), rem = S1 ++ a :: S2 →
        ∀ t, dh a = some t → 0 < w.elevations a → t ∈ S2) →
      (∀ x, fl x = 1 + ((done.map (fun i =>
        if dh i = some x ∧ 0 < w.elevations i then fl i else 0)).sum)) →
      ∀ x, rem.foldl (fluxStep w dh) fl x = 1 +
        (((done ++ rem).map (fun i =>
          if dh i = some x ∧ 0 < w.elevations i then
            rem.foldl (fluxStep w dh) fl i else 0)).sum) := by
  intro rem
  induction rem with
  | nil =>
    intro done fl _ _ hinv x
    simp only [List.foldl_nil, List.append_nil]
    exact hinv x
  | cons j rem2 ih =>
    intro done fl hnd hord hinv x
    simp only [List.foldl_cons]
    have hj_ord := hord [] j rem2 rfl
    have hnd2 : ((done ++ [j]) ++ rem2).Nodup := by
      rw [List.append_assoc, List.singleton_append]
      exact hnd
    have hord2 : ∀ (S1 : List ℕ) (a : ℕ) (S2 : List ℕ),
        rem2 = S1 ++ a :: S2 → ∀ t, dh a = some t →
        0 < w.elevations a → t ∈ S2 := by
      intro S1 a S2 hs t ht hel
      exact hord (j :: S1) a S2 (by rw [hs]; rfl) t ht hel
    have hinv2 : ∀ y, fluxStep w dh fl j y = 1 +
        (((done ++ [j]).map (fun i =>
          if dh i = some y ∧ 0 < w.elevations i then
            fluxStep w dh fl j i else 0)).sum) := by
      have hjdone : j ∉ done := by
        rw [List.nodup_append] at hnd
        exact fun hm => hnd.2.2 hm (by simp)
      intro y
      rcases hdh : dh j with _ | tj
      · -- no target: the step is the identity and the new term is 0
        have hstep : fluxStep w dh fl j = fl := by
          unfold fluxStep
          rw [hdh]
        rw [hstep]
        rw [List.map_append, List.sum_append]
        simp only [List.map_cons, List.map_nil, List.sum_cons, List.sum_nil]
        rw [if_neg (fun hx => Option.noConfusion (hdh ▸ hx.1))]
        rw [hinv y]
        ring
      · by_cases hel : 0 < w.elevations j
        · -- contributing step
          have htj_rem2 : tj ∈ rem2 := hj_ord tj hdh hel
          have htj_done : tj ∉ done := by
            rw [List.nodup_append] at hnd
            exact fun hm => hnd.2.2 hm (List.mem_cons_of_mem j htj_rem2)
          have htj_j : tj ≠ j := by
            rw [List.nodup_append] at hnd
            rcases hnd.2.1 with _ | ⟨hj2, _⟩
            exact fun he => hj2 tj htj_rem2 he.symm
          have hstep : fluxStep w dh fl j =
              Function.update fl tj (fl tj + fl j) := by
            unfold fluxStep
            rw [hdh]
            exact if_pos hel
          rw [hstep]
          have hfl_done : ∀ i ∈ done,
              Function.update fl tj (fl tj + fl j) i = fl i := by
            intro i hi
            exact Function.update_noteq
              (fun he => htj_done (by rw [← he]; exact hi)) _ _
          have hfl_j : Function.update fl tj (fl tj + fl j) j = fl j :=
            Function.update_noteq (fun he => htj_j he.symm) _ _
          rw [List.map_append, List.sum_append]
          simp only [List.map_cons, List.map_nil, List.sum_cons, List.sum_nil]
          have hmap_done : done.map (fun i =>
              if dh i = some y ∧ 0 < w.elevations i then
                Function.update fl tj (fl tj + fl j) i else 0) =
              done.map (fun i =>
                if dh i = some y ∧ 0 < w.elevations i then fl i else 0) := by
            refine List.map_congr_left ?_
            intro i hi
            split
            · exact hfl_done i hi
            · rfl
          rw [hmap_done]
          rcases eq_or_ne y tj with rfl | hne
          · rw [Function.update_same, if_pos ⟨hdh, hel⟩, hfl_j, hinv y]
            ring
          · rw [Function.update_noteq hne _ _,
              if_neg (fun hx => hne (Option.some_inj.mp (hdh ▸ hx.1)).symm),
              hinv y]
            ring
        · -- elevation not positive: identity step, term 0
          have hstep : fluxStep w dh fl j = fl := by
            unfold fluxStep
            rw [hdh]
            exact if_neg hel
          rw [hstep]
          rw [List.map_append, List.sum_append]
          simp only [List.map_cons, List.map_nil, List.sum_cons, List.sum_nil]
          rw [if_neg (fun hx => hel hx.2)]
          rw [hinv y]
          ring
    have := ih (done ++ [j]) (fluxStep w dh fl j) hnd2 hord2 hinv2 x
    rwa [List.append_assoc, List.singleton_append] at this

theorem list_range_map_sum (n : ℕ) (g : ℕ → ℚ) :
    ((List.range n).map g).sum = ∑ i in Finset.range n, g i := by
  induction n with
  | zero => simp
  | succ n ih =>
    rw [List.range_succ, List.map_append, List.sum_append,
      Finset.sum_range_succ, ih]
    simp

/-- C3: the elevation-descending, coast-distance-descending sort
processes every cell before its drainage target, and in consequence the
final flow volume of every cell is `1` plus the sum of the final flow
volumes of its direct contributors. -/
theorem C3_flux_accumulation (w : World) (hadj : w.AdjBounded) :
    (∀ i t, w.downhill i = some t → 0 < w.elevations i →
      ∀ (p q : ℕ), ∀ hp : p < w.sortedIndices.length,
        ∀ hq : q < w.sortedIndices.length,
        w.sortedIndices[p] = i → w.sortedIndices[q] = t → p < q) ∧
    (∀ c, w.flux c = 1 + ∑ i in (Finset.range w.cellCount).filter
      (fun i => w.downhill i = some c ∧ 0 < w.elevations i), w.flux i) := by
  constructor
  · intro i t ht _ p q hp hq hpi hqt
    have hlex := (downhillAt_some w w.calculateDistanceToCoast i t ht).2.2.1
    have hne : i ≠ t := by
      intro he
      rw [he] at hlex
      exact lexLt_irrefl _ hlex
    by_contra hcon
    push_neg at hcon
    rcases eq_or_lt_of_le hcon with heq | hlt
    · subst heq
      exact hne (hpi.symm.trans hqt)
    · have := (List.pairwise_iff_getElem.mp (sortedIndices_sorted w))
        q p hq hp hlt
      rw [hpi, hqt] at this
      exact not_fluxOrder_of_lexLt w w.calculateDistanceToCoast t i hlex this
  · intro c
    have hmain := fluxFold_spec w w.downhill w.sortedIndices [] (fun _ => 1)
      (by simpa using sortedIndices_nodup w)
      (fun S1 a S2 hs t ht hel => sorted_targets_later w hadj S1 a S2 hs t ht hel)
      (fun x => by simp) c
    rw [List.nil_append] at hmain
    have hflux : w.flux = w.sortedIndices.foldl
        (fluxStep w w.downhill) (fun _ => 1) := rfl
    rw [← hflux] at hmain
    rw [hmain]
    have hperm : (w.sortedIndices.map (fun i =>
        if w.downhill i = some c ∧ 0 < w.elevations i then w.flux i else 0)).Perm
        ((List.range w.cellCount).map (fun i =>
          if w.downhill i = some c ∧ 0 < w.elevations i then w.flux i else 0)) :=
      (sortedIndices_perm w).map _
    rw [hperm.sum_eq, list_range_map_sum, ← Finset.sum_filter]

unseal Rat.add Rat.sub Rat.mul Rat.inv Rat.ofScientific in
/-- Witness for C3 at `exampleWorld3`. -/
theorem C3_flux_accumulation_witness :
    exampleWorld3.AdjBounded ∧
      ((∀ i t, exampleWorld3.downhill i = some t →
          0 < exampleWorld3.elevations i →
          ∀ (p q : ℕ), ∀ hp : p < exampleWorld3.sortedIndices.length,
            ∀ hq : q < exampleWorld3.sortedIndices.length,
            exampleWorld3.sortedIndices[p] = i →
            exampleWorld3.sortedIndices[q] = t → p < q) ∧
        (∀ c, exampleWorld3.flux c = 1 +
          ∑ i in (Finset.range exampleWorld3.cellCount).filter
            (fun i => exampleWorld3.downhill i = some c ∧
              0 < exampleWorld3.elevations i), exampleWorld3.flux i)) :=
  ⟨by unfold World.AdjBounded; decide,
    C3_flux_accumulation exampleWorld3 (by unfold World.AdjBounded; decide)⟩

/-- C6: the river output contains a segment record
`(x1, y1, x2, y2, flowVolume)` for a cell `i` precisely when
`flux i > 50`, `elevations i > 0` and `i` has a downhill target; the
record carries `i`'s position, the target's position and `i`'s flux. -/
theorem C6_river_segments (w : World) (x1 y1 x2 y2 fv : ℚ) :
    (x1, y1, x2, y2, fv) ∈ w.riverSegments ↔
      ∃ i t, i < w.cellCount ∧ w.downhill i = some t ∧ 50 < w.flux i ∧
        0 < w.elevations i ∧ x1 = (w.points i).1 ∧ y1 = (w.points i).2 ∧
        x2 = (w.points t).1 ∧ y2 = (w.points t).2 ∧ fv = w.flux i := by
  unfold World.riverSegments
  rw [List.mem_filterMap]
  constructor
  · rintro ⟨i, hi, hfi⟩
    rw [List.mem_range] at hi
    split at hfi
    · next hcond =>
      rcases hdh : w.downhill i with _ | t
      · rw [hdh] at hfi
        cases hfi
      · rw [hdh, Option.map_some'] at hfi
        have hfi' := Option.some.inj hfi
        refine ⟨i, t, hi, hdh, hcond.1, hcond.2, ?_, ?_, ?_, ?_, ?_⟩
        · exact (congrArg (fun p => p.1) hfi').symm
        · exact (congrArg (fun p => p.2.1) hfi').symm
        · exact (congrArg (fun p => p.2.2.1) hfi').symm
        · exact (congrArg (fun p => p.2.2.2.1) hfi').symm
        · exact (congrArg (fun p => p.2.2.2.2) hfi').symm
    · cases hfi
  · rintro ⟨i, t, hi, hdh, hfl, hel, h1, h2, h3, h4, h5⟩
    refine ⟨i, List.mem_range.mpr hi, ?_⟩
    rw [if_pos ⟨hfl, hel⟩, hdh, Option.map_some', h1, h2, h3, h4, h5]

/-! ## C8/C9: the `MinHeap` contract -/

/-- The elevation-difference comparator of the source
(`(a, b) => elevations[a] - elevations[b]`) at a fixed elevation
assignment, instantiated on a 3-element example. -/
def cmpW : ℕ → ℕ → ℚ := fun a b => (a : ℚ) - b

/-- A heap built by three pushes under `cmpW`. -/
def heapW : List ℕ := push cmpW (push cmpW (push cmpW [] 5) 2) 7

/-- C8: for a comparator encoding a fixed total preorder and a heap state
reached from empty by any sequence of `push`/`pop` operations, a pop of a
non-empty heap returns an element minimal under the comparator among the
stored elements, removing exactly one occurrence of it and leaving all
other multiplicities unchanged (so duplicate insertions are honoured). -/
theorem C8_heap_pop_min {T : Type} [Inhabited T] [DecidableEq T]
    (cmp : T → T → ℚ) (hc : IsComparator cmp) (l : List T)
    (hr : HeapReachable cmp l) (h0 : 0 < l.length) :
    ∃ m, (pop cmp l).1 = some m ∧ m ∈ l ∧
      (∀ x ∈ l, cmp m x ≤ 0) ∧
      (pop cmp l).2.count m + 1 = l.count m ∧
      (∀ b, b ≠ m → (pop cmp l).2.count b = l.count b) := by
  have hwf := heapReachable_wf cmp hc l hr
  refine ⟨l[0], pop_fst cmp l h0, List.getElem_mem h0, ?_, ?_, ?_⟩
  · intro x hx
    obtain ⟨j, hj, rfl⟩ := List.mem_iff_getElem.mp hx
    have hm := heapWF_root_min cmp hc l hwf j hj
    rw [hGet_eq_getElem l h0, hGet_eq_getElem l hj] at hm
    exact hm
  · have hcnt := count_pop cmp l h0 (l[0])
    rw [if_pos rfl] at hcnt
    omega
  · intro b hb
    have hcnt := count_pop cmp l h0 b
    rw [if_neg (Ne.symm hb)] at hcnt
    omega

unseal Rat.add Rat.sub Rat.mul Rat.inv Rat.ofScientific in
theorem C8_heap_pop_min_witness :
    IsComparator cmpW ∧ HeapReachable cmpW heapW ∧ 0 < heapW.length ∧
    (∃ m, (pop cmpW heapW).1 = some m ∧ m ∈ heapW ∧
      (∀ x ∈ heapW, cmpW m x ≤ 0) ∧
      (pop cmpW heapW).2.count m + 1 = heapW.count m ∧
      (∀ b, b ≠ m → (pop cmpW heapW).2.count b = heapW.count b)) := by
  have hc : IsComparator cmpW := by
    constructor
    · intro a b
      show (a : ℚ) - b ≤ 0 ↔ 0 ≤ (b : ℚ) - a
      constructor <;> intro h <;> linarith
    · intro a b c h1 h2
      have h1' : (a : ℚ) - b ≤ 0 := h1
      have h2' : (b : ℚ) - c ≤ 0 := h2
      show (a : ℚ) - c ≤ 0
      linarith
  have hr : HeapReachable cmpW heapW := by
    unfold heapW
    exact HeapReachable.push_op _ 7 (HeapReachable.push_op _ 2
      (HeapReachable.push_op _ 5 HeapReachable.empty))
  have h0 : 0 < heapW.length := by
    unfold heapW
    simp
  exact ⟨hc, hr, h0, C8_heap_pop_min cmpW hc heapW hr h0⟩

/-- C9: popping an empty heap returns the explicit empty result (`none`,
the `undefined` of the source) and leaves the heap empty with length 0. -/
theorem C9_pop_on_empty {T : Type} [Inhabited T] (cmp : T → T → ℚ)
    (l : List T) (h : l.length = 0) :
    (pop cmp l).1 = none ∧ (pop cmp l).2 = [] ∧ (pop cmp l).2.length = 0 := by
  rw [pop_empty cmp l h]
  exact ⟨rfl, List.eq_nil_of_length_eq_zero h, h⟩

theorem C9_pop_on_empty_witness :
    ([] : List ℕ).length = 0 ∧
    ((pop cmpW ([] : List ℕ)).1 = none ∧ (pop cmpW ([] : List ℕ)).2 = [] ∧
      (pop cmpW ([] : List ℕ)).2.length = 0) :=
  ⟨rfl, C9_pop_on_empty cmpW [] rfl⟩

end Tilemap
